import Mathlib

/-!
Verification of the yamllint core: a shallow embedding of the rule checker
(`src/rules.rs`), the report aggregation (`src/linter.rs`), the configuration
model (`src/config.rs`) and the auto-fix rewriter (`src/formatter.rs`).

Strings from the Rust source are modelled as `List Char`; Rust's byte-based
`str::len` is modelled at character granularity (the two agree on ASCII
content, which is all the spec and the claims exercise).  Rust's
`char::is_whitespace` is modelled on the ASCII whitespace characters.
Functions that can panic in Rust (division / remainder by zero) are modelled
as `Option`-valued, with `none` standing for the panic.
-/

/-- A line (or a whole document) of text, one Rust `char` per entry. -/
abbrev Line := List Char

/-- Rust `char::is_whitespace`, restricted to the ASCII whitespace characters
that YAML documents contain. -/
def isWs (c : Char) : Bool :=
  c = ' ' || c = '\t' || c = '\r' || c = '\n'

/-- Rust `str::trim_start`: drop leading whitespace. -/
def trimStartL (l : Line) : Line := l.dropWhile isWs

/-- Rust `str::trim_end`: drop trailing whitespace. -/
def trimEndL (l : Line) : Line := (l.reverse.dropWhile isWs).reverse

/-- Rust `str::trim`. -/
def trimL (l : Line) : Line := trimEndL (trimStartL l)

/-- `line.trim().is_empty()`, the blank-line test used throughout the rules. -/
def isBlank (l : Line) : Bool := (trimL l).isEmpty

/-- Helper for `splitChar`: prepend a character to the first part. -/
def consHead (a : Char) : List Line → List Line
  | [] => [[a]]
  | p :: ps => (a :: p) :: ps

/-- Split a string at every occurrence of `c` (Rust `str::split`), producing
`n + 1` parts for `n` separators. -/
def splitChar (c : Char) : Line → List Line
  | [] => [[]]
  | a :: rest =>
    if a = c then [] :: splitChar c rest
    else consHead a (splitChar c rest)

/-- Strip one trailing carriage return, as Rust `str::lines` does to each
line that ended in `\r\n`. -/
def stripCr (l : Line) : Line :=
  if l.getLast? = some '\r' then l.dropLast else l

/-- Rust `str::lines`: split at `\n`, drop the final empty segment produced by
a trailing newline (so the final line ending is optional), and strip one
trailing `\r` from every line. -/
def rustLines (s : Line) : List Line :=
  let parts := splitChar '\n' s
  let parts := if parts.getLast? = some [] then parts.dropLast else parts
  parts.map stripCr

/-- Severity levels (`config.rs`). -/
inductive Severity where
  | Error
  | Warning
  | Info
  | Off
deriving DecidableEq, Repr

/-- `IndentationRule` (`config.rs`). -/
structure IndentationRule where
  spaces : Nat
  check_multi_line_strings : Bool
deriving DecidableEq, Repr

/-- `LineLengthRule` (`config.rs`). -/
structure LineLengthRule where
  max : Nat
  allow_non_breakable_words : Bool
deriving DecidableEq, Repr

/-- `EmptyLinesRule` (`config.rs`). -/
structure EmptyLinesRule where
  max_start : Nat
  max_end : Nat
  max_consecutive : Nat
deriving DecidableEq, Repr

/-- `RequiredFieldsRule` (`config.rs`); the Rust `HashMap` of
pattern-to-fields entries is modelled as an association list (the rules only
iterate over it, and no claim depends on the hash iteration order). -/
structure RequiredFieldsRule where
  paths : List (String × List String)
deriving DecidableEq, Repr

/-- `ValueTypesRule` (`config.rs`). -/
structure ValueTypesRule where
  strict_numbers : Bool
  check_bool_values : Bool
deriving DecidableEq, Repr

/-- `QuotesRule` (`config.rs`). -/
structure QuotesRule where
  prefer_double : Bool
deriving DecidableEq, Repr

/-- `SeverityRule` (`config.rs`). -/
structure SeverityRule where
  level : Severity
deriving DecidableEq, Repr

/-- `RuleConfig` (`config.rs`). -/
structure RuleConfig where
  indentation : IndentationRule
  line_length : LineLengthRule
  trailing_spaces : SeverityRule
  empty_lines : EmptyLinesRule
  required_fields : RequiredFieldsRule
  value_types : ValueTypesRule
  duplicates : SeverityRule
  quotes : QuotesRule
deriving DecidableEq, Repr

/-- `FormatConfig` (`config.rs`). -/
structure FormatConfig where
  auto_fix : Bool
  backup_files : Bool
  indent_sequence : Bool
deriving DecidableEq, Repr

/-- `Config` (`config.rs`). -/
structure Config where
  rules : RuleConfig
  format : FormatConfig
  exclude : List String
deriving DecidableEq, Repr

/-- `Config::default` (`config.rs`). -/
def Config.default : Config where
  rules :=
    { indentation := { spaces := 2, check_multi_line_strings := true }
      line_length := { max := 120, allow_non_breakable_words := true }
      trailing_spaces := { level := Severity.Error }
      empty_lines := { max_start := 0, max_end := 1, max_consecutive := 2 }
      required_fields :=
        { paths := [("**/k8s/*.yaml", ["apiVersion", "kind", "metadata.name"])] }
      value_types := { strict_numbers := true, check_bool_values := true }
      duplicates := { level := Severity.Error }
      quotes := { prefer_double := false } }
  format := { auto_fix := false, backup_files := true, indent_sequence := true }
  exclude := ["**/node_modules/", "**/.git/", "**/vendor/"]

/-- A diagnostic, `LintResult` (`rules.rs`). -/
structure LintResult where
  file : String
  line : Nat
  column : Nat
  severity : Severity
  rule : String
  message : String
  snippet : String
deriving DecidableEq, Repr

/-- `LintResult::is_error` (`rules.rs`). -/
def LintResult.is_error (r : LintResult) : Bool := r.severity = Severity.Error

/-- `LintResult::is_warning` (`rules.rs`). -/
def LintResult.is_warning (r : LintResult) : Bool := r.severity = Severity.Warning

/-- One iteration of the `check_indentation` loop (`rules.rs`).  `none` models
the Rust panic `leading_spaces % 0` that a zero `spaces` configuration causes
on a non-blank line that starts with a space. -/
def checkIndentLine (spaces : Nat) (file : String) (lineNum : Nat) (l : Line) :
    Option (List LintResult) :=
  if isBlank l then some []
  else if l.head? = some ' ' then
    if spaces = 0 then none
    else
      let leading := l.length - (trimStartL l).length
      if leading % spaces ≠ 0 then
        some [{ file := file, line := lineNum, column := 1,
                severity := Severity.Error, rule := "indentation",
                message := "Indentation should be multiples of " ++
                  toString spaces ++ " spaces",
                snippet := String.mk l }]
      else some []
  else some []

/-- `RuleChecker::check_indentation` (`rules.rs`). -/
def check_indentation (config : Config) (content : Line) (file : String) :
    Option (List LintResult) :=
  ((rustLines content).enum.mapM fun il =>
    checkIndentLine config.rules.indentation.spaces file (il.1 + 1) il.2).map
    List.flatten

/-- `line.ends_with(' ') || line.ends_with('\t')` (`rules.rs`). -/
def endsWithST (l : Line) : Bool :=
  match l.getLast? with
  | some c => c = ' ' || c = '\t'
  | none => false

/-- `RuleChecker::check_trailing_spaces` (`rules.rs`). -/
def check_trailing_spaces (config : Config) (content : Line) (file : String) :
    List LintResult :=
  ((rustLines content).enum.map fun il =>
    if endsWithST il.2 then
      [{ file := file, line := il.1 + 1, column := il.2.length,
         severity := config.rules.trailing_spaces.level,
         rule := "trailing-spaces",
         message := "Trailing spaces are not allowed",
         snippet := String.mk il.2 }]
    else []).flatten

/-- `RuleChecker::check_line_length` (`rules.rs`). -/
def check_line_length (config : Config) (content : Line) (file : String) :
    List LintResult :=
  ((rustLines content).enum.map fun il =>
    if il.2.length > config.rules.line_length.max then
      [{ file := file, line := il.1 + 1,
         column := config.rules.line_length.max + 1,
         severity := Severity.Warning, rule := "line-length",
         message := "Line too long (" ++ toString il.2.length ++ " > " ++
           toString config.rules.line_length.max ++ ")",
         snippet := String.mk il.2 }]
    else []).flatten

/-- The interior-run loop of `check_empty_lines` (`rules.rs`), carrying the
running count of consecutive blank lines. -/
def consecLoop (maxC : Nat) (file : String) : Nat → List (Nat × Line) → List LintResult
  | _, [] => []
  | cnt, il :: rest =>
    if isBlank il.2 then
      (if cnt + 1 > maxC then
        [{ file := file, line := il.1 + 1, column := 1,
           severity := Severity.Warning, rule := "empty-lines",
           message := "Too many consecutive empty lines (" ++
             toString (cnt + 1) ++ ")",
           snippet := "" }]
      else []) ++ consecLoop maxC file (cnt + 1) rest
    else consecLoop maxC file 0 rest

/-- The interior-run half of `check_empty_lines` (`rules.rs`). -/
def interior_empty_results (maxC : Nat) (file : String) (lines : List Line) :
    List LintResult :=
  consecLoop maxC file 0 lines.enum

/-- The leading-run half of `check_empty_lines` (`rules.rs`): count blank
lines at the start of the file and emit one diagnostic when the count exceeds
`max_start`. -/
def start_empty_results (maxStart : Nat) (file : String) (lines : List Line) :
    List LintResult :=
  let startEmpty := (lines.takeWhile isBlank).length
  if startEmpty > maxStart then
    [{ file := file, line := 1, column := 1, severity := Severity.Warning,
       rule := "empty-lines",
       message := "Too many empty lines at start of file (" ++
         toString startEmpty ++ ")",
       snippet := "" }]
  else []

/-- `RuleChecker::check_empty_lines` (`rules.rs`): the interior-run loop runs
first, then the start-of-file check appends its diagnostic. -/
def check_empty_lines (config : Config) (content : Line) (file : String) :
    List LintResult :=
  interior_empty_results config.rules.empty_lines.max_consecutive file
      (rustLines content) ++
    start_empty_results config.rules.empty_lines.max_start file
      (rustLines content)

example : rustLines "a\nb\n".toList = ["a".toList, "b".toList] := by decide

example : rustLines "".toList = [] := by decide

example : rustLines "\n".toList = [[]] := by decide

example : rustLines "a\r\nb".toList = ["a".toList, "b".toList] := by decide

example :
    (check_empty_lines Config.default "\n\n\n".toList "f").length = 2 := by decide

example :
    (check_line_length { Config.default with
        rules := { Config.default.rules with
          line_length := { max := 1, allow_non_breakable_words := true } } }
      "ab".toList "f").length = 1 := by decide

/-- Modelled from the spec: `serde_yaml::Value`, the parsed-tree type produced
by the external parser (the crate is not part of this repository's sources).
Following §3/§9 of the spec and the duplicate-key design requirement, a
mapping is an ordered sequence of key-value entries that preserves duplicate
keys; floating-point numbers are out of scope and integers stand in for all
numbers. -/
inductive Value where
  | null
  | bool (b : Bool)
  | number (n : Int)
  | string (s : String)
  | sequence (vs : List Value)
  | mapping (entries : List (Value × Value))

/-- `Value::String` key equality, as used by the `contains_key`/`get` calls of
`check_nested_field`, which always look up with a string key. -/
def valueIsString (k : Value) (s : String) : Bool :=
  match k with
  | Value.string t => t = s
  | _ => false

/-- `Mapping::get`/`contains_key` with a string key: the first entry whose key
is the given string (entries are ordered; a deduplicating map would hold at
most one). -/
def lookupStr (m : List (Value × Value)) (s : String) : Option Value :=
  match m with
  | [] => none
  | kv :: rest => if valueIsString kv.1 s then some kv.2 else lookupStr rest s

/-- The diagnostic pushed by `check_nested_field` for a missing segment. -/
def missingFieldDiag (file key : String) : LintResult :=
  { file := file, line := 1, column := 1, severity := Severity.Error,
    rule := "required-fields",
    message := "Missing required field: " ++ key,
    snippet := "" }

/-- `RuleChecker::check_nested_field` (`rules.rs`): walk the dot-separated
segments into nested mappings; report the first absent segment and stop; stop
silently when an intermediate value is not a mapping. -/
def check_nested_field (file : String) :
    List (Value × Value) → List String → List LintResult
  | _, [] => []
  | m, key :: restParts =>
    match lookupStr m key with
    | none => [missingFieldDiag file key]
    | some subValue =>
      if restParts.isEmpty then []
      else
        match subValue with
        | Value.mapping subMapping => check_nested_field file subMapping restParts
        | _ => []

/-- Rust `field.split('.')` producing the dotted path segments. -/
def splitDot (field : String) : List String :=
  (splitChar '.' field.toList).map String.mk

/-- `RuleChecker::check_required_in_value` (`rules.rs`). -/
def check_required_in_value (v : Value) (requiredFields : List String)
    (file : String) : List LintResult :=
  match v with
  | Value.mapping m =>
    (requiredFields.map fun f => check_nested_field file m (splitDot f)).flatten
  | _ => []

/-- Rust `str::trim_matches(c)`: strip every leading and every trailing
occurrence of `c`. -/
def trimMatchesC (c : Char) (l : Line) : Line :=
  ((l.dropWhile (· = c)).reverse.dropWhile (· = c)).reverse

/-- The pattern preprocessing of `check_required_fields` (`rules.rs`):
`pattern.trim_matches('*').trim_matches('/')`. -/
def stripPattern (pattern : String) : Line :=
  trimMatchesC '/' (trimMatchesC '*' pattern.toList)

/-- Rust `str::contains` for a literal substring: scan each suffix of the
haystack for the needle as a prefix. -/
def rustContains (hay needle : Line) : Bool :=
  match hay with
  | [] => needle.isEmpty
  | _ :: rest => needle.isPrefixOf hay || rustContains rest needle

/-- The path test of `check_required_fields` (`rules.rs`):
`file_path.contains(pattern.trim_matches('*').trim_matches('/'))`. -/
def required_pattern_applies (filePath pattern : String) : Bool :=
  rustContains filePath.toList (stripPattern pattern)

/-- `RuleChecker::check_required_fields` (`rules.rs`). -/
def check_required_fields (config : Config) (v : Value) (file : String) :
    List LintResult :=
  (config.rules.required_fields.paths.map fun pr =>
    if required_pattern_applies file pr.1 then
      check_required_in_value v pr.2 file
    else []).flatten

/-- External functions used by the checker that live outside this repository:
the `serde_yaml::from_str` parse and the `str::parse::<i64>/<f64>` numeric
tests of `check_value_types`.  They are taken as parameters of the model. -/
structure Oracle where
  parse : Line → Except String Value
  parsesNumber : String → Bool

/-- `RuleChecker::visit_value` (`rules.rs`). -/
def visit_value (o : Oracle) (config : Config) (file : String) :
    Value → List LintResult
  | Value.string s =>
    (if config.rules.value_types.check_bool_values then
      let lower := s.toLower
      if lower = "true" ∨ lower = "false" ∨ lower = "yes" ∨ lower = "no" then
        [{ file := file, line := 1, column := 1, severity := Severity.Warning,
           rule := "value-types",
           message := "Boolean-like string: '" ++ s ++
             "'. Consider using boolean type.",
           snippet := s }]
      else []
    else []) ++
    (if config.rules.value_types.strict_numbers then
      if o.parsesNumber s then
        [{ file := file, line := 1, column := 1, severity := Severity.Warning,
           rule := "value-types",
           message := "Number-like string: '" ++ s ++
             "'. Consider using number type.",
           snippet := s }]
      else []
    else [])
  | Value.mapping entries =>
    (entries.attach.map fun kv => visit_value o config file kv.1.2).flatten
  | Value.sequence vs =>
    (vs.attach.map fun v => visit_value o config file v.1).flatten
  | _ => []
decreasing_by
  · have := List.sizeOf_lt_of_mem kv.2
    cases kv'' : kv.1 with
    | mk k v =>
      simp [kv''] at this ⊢
      omega
  · have := List.sizeOf_lt_of_mem v.2
    simp at this ⊢
    omega

/-- `RuleChecker::check_value_types` (`rules.rs`). -/
def check_value_types (o : Oracle) (config : Config) (v : Value)
    (file : String) : List LintResult :=
  visit_value o config file v

/-- The seen-keys loop of `check_duplicates` (`rules.rs`): `HashSet::insert`
returns `false` for an already-seen key, which pushes a diagnostic. -/
def dupLoop (config : Config) (file : String) (seen : List String) :
    List (Value × Value) → List LintResult
  | [] => []
  | kv :: rest =>
    match kv.1 with
    | Value.string s =>
      if seen.contains s then
        { file := file, line := 1, column := 1,
          severity := config.rules.duplicates.level, rule := "duplicates",
          message := "Duplicate key: '" ++ s ++ "'",
          snippet := s } :: dupLoop config file seen rest
      else dupLoop config file (s :: seen) rest
    | _ => dupLoop config file seen rest

/-- `RuleChecker::check_duplicates` (`rules.rs`): operates on the root mapping
only. -/
def check_duplicates (config : Config) (v : Value) (file : String) :
    List LintResult :=
  match v with
  | Value.mapping entries => dupLoop config file [] entries
  | _ => []

/-- `RuleChecker::check_file` (`rules.rs`).  The Rust code parses the content
twice with the same pure parser, so both parses are modelled by the single
`o.parse content`; `none` propagates the indentation-rule panic. -/
def check_file (o : Oracle) (config : Config) (content : Line)
    (file : String) : Option (List LintResult) :=
  match o.parse content with
  | Except.error e =>
    some [{ file := file, line := 1, column := 1, severity := Severity.Error,
            rule := "syntax",
            message := "Syntax error: " ++ e,
            snippet := String.mk ((rustLines content).headD []) }]
  | Except.ok value =>
    (check_indentation config content file).map fun indentResults =>
      indentResults ++
      check_trailing_spaces config content file ++
      check_line_length config content file ++
      check_empty_lines config content file ++
      (check_required_fields config value file ++
       check_value_types o config value file ++
       check_duplicates config value file)

/-- `LintReport` (`linter.rs`). -/
structure LintReport where
  file : String
  results : List LintResult
  passed : Bool
deriving DecidableEq, Repr

/-- `YamlLinter::lint_file` (`linter.rs`): `passed` is the negation of
`results.iter().any(|r| r.is_error())`. -/
def lint_file (o : Oracle) (config : Config) (content : Line)
    (file : String) : Option LintReport :=
  (check_file o config content file).map fun results =>
    { file := file, results := results,
      passed := !(results.any LintResult.is_error) }

/-- A parser that always fails, exercising the syntax gate. -/
def failOracle : Oracle where
  parse := fun _ => Except.error "boom"
  parsesNumber := fun _ => false

/-- The report produced by the failing parse of `failOracle`. -/
def reportW : LintReport where
  file := "f.yaml"
  results := [{ file := "f.yaml", line := 1, column := 1,
                severity := Severity.Error, rule := "syntax",
                message := "Syntax error: boom", snippet := "key: value" }]
  passed := false

/-- A configuration whose line-length maximum is 1. -/
def configMax1 : Config :=
  { Config.default with
    rules := { Config.default.rules with
      line_length := { max := 1, allow_non_breakable_words := true } } }

/-- A configuration whose trailing-spaces severity is Off. -/
def configTrailingOff : Config :=
  { Config.default with
    rules := { Config.default.rules with
      trailing_spaces := { level := Severity.Off } } }

/-- One iteration of the `fix_indentation` loop (`formatter.rs`): truncate the
leading run to a whole number of indent units.  `none` models the Rust panic
`leading_spaces / 0` for a zero `spaces` configuration. -/
def fixIndentLine (spaces : Nat) (l : Line) : Option Line :=
  if isBlank l then some l
  else if l.head? = some ' ' then
    if spaces = 0 then none
    else
      let leading := l.length - (trimStartL l).length
      let newIndent := (leading / spaces) * spaces
      some (List.replicate newIndent ' ' ++ trimStartL l)
  else some l

/-- `fix_indentation` (`formatter.rs`). -/
def fix_indentation (config : Config) (lines : List Line) :
    Option (List Line) :=
  lines.mapM (fixIndentLine config.rules.indentation.spaces)

/-- `fix_trailing_spaces` (`formatter.rs`): `line.trim_end()` on every line. -/
def fix_trailing_spaces (lines : List Line) : List Line := lines.map trimEndL

/-- Drop the trailing run of elements satisfying `p`. -/
def dropLastWhileB (p : Line → Bool) (ls : List Line) : List Line :=
  (ls.reverse.dropWhile p).reverse

/-- The squeeze loop of `fix_empty_lines` (`formatter.rs`): for every run of
consecutive blank lines longer than `maxC`, delete the excess lines from the
front of the run (`lines.drain(i..i + to_remove)`), keeping the tail.
`pending` is the blank run collected so far. -/
def squeezeAux (maxC : Nat) (pending : List Line) : List Line → List Line
  | [] => pending.drop (pending.length - maxC)
  | l :: ls =>
    if isBlank l then squeezeAux maxC (pending ++ [l]) ls
    else pending.drop (pending.length - maxC) ++ l :: squeezeAux maxC [] ls

/-- `fix_empty_lines` (`formatter.rs`): strip leading and trailing blank
lines, squeeze interior runs to `max_consecutive`, and unconditionally append
one empty line whenever `max_end > 0`. -/
def fix_empty_lines (config : Config) (lines : List Line) : List Line :=
  let lines := lines.dropWhile isBlank
  let lines := dropLastWhileB isBlank lines
  let lines := squeezeAux config.rules.empty_lines.max_consecutive [] lines
  if config.rules.empty_lines.max_end > 0 then lines ++ [[]] else lines

/-- The character replacement of `line.replace('\'', "\"")` (`formatter.rs`). -/
def mapQuoteChar (c : Char) : Char := if c = '\'' then '"' else c

/-- The greedy body of one regex alternative: the content up to the next
closing quote `q`, or `none` if `q` never occurs. -/
def findClose (q : Char) : Line → Option Line
  | [] => none
  | c :: rest => if c = q then some [] else (findClose q rest).map (c :: ·)

/-- Leftmost match of the regex `"([^"]*)"|'([^']*)'` (`formatter.rs`),
returning the unquoted content of the first complete quoted span. -/
def findSpan : Line → Option Line
  | [] => none
  | c :: rest =>
    if c = '"' ∨ c = '\'' then
      match findClose c rest with
      | some content => some content
      | none => findSpan rest
    else findSpan rest

/-- Rust `str::replace` for a pattern beginning with `p` (all non-overlapping
occurrences, left to right). -/
def replaceAll1 (p : Char) (pt rep : Line) : Line → Line
  | [] => []
  | c :: rest =>
    if (p :: pt).isPrefixOf (c :: rest) then
      rep ++ replaceAll1 p pt rep (rest.drop pt.length)
    else c :: replaceAll1 p pt rep rest
termination_by s => s.length
decreasing_by
  · simp [List.length_drop]
    omega
  · simp

/-- One line of `fix_quotes` (`formatter.rs`): with `prefer_double`, blindly
replace every single quote by a double quote; otherwise strip the first
quoted span when its content is simple (non-empty, no ':' and no '#'),
replacing every occurrence of the double-quoted and then the single-quoted
form of the content. -/
def fixQuoteLine (quotes : QuotesRule) (l : Line) : Line :=
  if quotes.prefer_double then l.map mapQuoteChar
  else
    match findSpan l with
    | some content =>
      if !content.contains ':' && !content.contains '#' && !content.isEmpty then
        replaceAll1 '\'' (content ++ ['\'']) content
          (replaceAll1 '"' (content ++ ['"']) content l)
      else l
    | none => l

/-- `fix_quotes` (`formatter.rs`). -/
def fix_quotes (config : Config) (lines : List Line) : List Line :=
  lines.map (fixQuoteLine config.rules.quotes)

/-- `lines.join("\n")` (`formatter.rs`). -/
def joinNl : List Line → Line
  | [] => []
  | [l] => l
  | l :: l' :: ls => l ++ '\n' :: joinNl (l' :: ls)

/-- `fix_content` (`formatter.rs`): the four fixes in order, then join with
newlines and append one final newline.  `none` models the indentation-fix
panic for a zero-width indent unit. -/
def fix_content (config : Config) (content : Line) : Option Line := do
  let lines := rustLines content
  let lines ← fix_indentation config lines
  let lines := fix_trailing_spaces lines
  let lines := fix_empty_lines config lines
  let lines := fix_quotes config lines
  return joinNl lines ++ ['\n']

/-- A configuration with a zero-width indentation unit. -/
def configSpaces0 : Config :=
  { Config.default with
    rules := { Config.default.rules with
      indentation := { spaces := 0, check_multi_line_strings := true } } }

/-- The mapping reached by walking dotted-path segments through nested
mappings (the descent that `check_nested_field` performs). -/
def walkPath : List (Value × Value) → List String → Option (List (Value × Value))
  | m, [] => some m
  | m, k :: rest =>
    match lookupStr m k with
    | some (Value.mapping sub) => walkPath sub rest
    | _ => none

/-- A line hits the quote-stripping edge case when its first quoted span has
simple content: non-empty, without ':' and without '#' (the condition under
which `fix_quotes` rewrites the line). -/
def strippable (l : Line) : Bool :=
  match findSpan l with
  | some content =>
    !content.contains ':' && !content.contains '#' && !content.isEmpty
  | none => false

/-- Blank-run counter for checking that no run of consecutive blank lines
exceeds `maxC`, starting from a run already `cnt` long. -/
def runsLeAux (maxC : Nat) : Nat → List Line → Bool
  | _, [] => true
  | cnt, l :: ls =>
    if isBlank l then decide (cnt + 1 ≤ maxC) && runsLeAux maxC (cnt + 1) ls
    else runsLeAux maxC 0 ls

/-- Membership in the per-line diagnostic lists produced by the text rules. -/
theorem mem_flatten_enum {α β : Type} (g : Nat → α → List β) (ls : List α)
    (r : β) :
    (r ∈ ((ls.enum.map fun ia => g ia.1 ia.2).flatten)) ↔
      ∃ i a, ls[i]? = some a ∧ r ∈ g i a := by
  simp only [List.mem_flatten, List.mem_map]
  constructor
  · rintro ⟨bl, ⟨⟨i, a⟩, hmem, rfl⟩, hr⟩
    exact ⟨i, a, List.mk_mem_enum_iff_getElem?.1 hmem, hr⟩
  · rintro ⟨i, a, hget, hr⟩
    exact ⟨g i a, ⟨⟨i, a⟩, List.mk_mem_enum_iff_getElem?.2 hget, rfl⟩, hr⟩

/-- C5: for every input whose parse fails, `check_file` returns exactly one
diagnostic: rule id "syntax", severity Error, position (1,1), snippet the
document's first line (empty for an empty document); no other rule runs. -/
theorem syntax_gate_single_diagnostic (o : Oracle) (config : Config)
    (content : Line) (file e : String)
    (h : o.parse content = Except.error e) :
    check_file o config content file =
      some [{ file := file, line := 1, column := 1,
              severity := Severity.Error, rule := "syntax",
              message := "Syntax error: " ++ e,
              snippet := String.mk ((rustLines content).headD []) }] := by
  unfold check_file
  rw [h]

/-- Witness for C5 at a concrete failing input. -/
theorem syntax_gate_single_diagnostic_witness :
    check_file failOracle Config.default "key: value".toList "f.yaml" =
      some [{ file := "f.yaml", line := 1, column := 1,
              severity := Severity.Error, rule := "syntax",
              message := "Syntax error: boom",
              snippet := "key: value" }] := by
  rw [syntax_gate_single_diagnostic failOracle Config.default
    "key: value".toList "f.yaml" "boom" rfl]
  decide

/-- C6: the `passed` flag of a lint report is true iff no diagnostic in the
report has severity Error; Warning, Info and Off diagnostics never make it
false. -/
theorem passed_iff_no_error (o : Oracle) (config : Config) (content : Line)
    (file : String) (report : LintReport)
    (h : lint_file o config content file = some report) :
    report.passed = true ↔
      ∀ r ∈ report.results, r.severity ≠ Severity.Error := by
  unfold lint_file at h
  cases hc : check_file o config content file with
  | none => rw [hc] at h; simp at h
  | some results =>
    rw [hc] at h
    simp only [Option.map_some'] at h
    cases h
    simp only [Bool.not_eq_true']
    rw [List.any_eq_false]
    constructor
    · intro hall r hr
      have := hall r hr
      simpa [LintResult.is_error] using this
    · intro hall r hr
      simpa [LintResult.is_error] using hall r hr

/-- Witness for C6 at a concrete report. -/
theorem passed_iff_no_error_witness :
    (reportW.passed = true ↔
      ∀ r ∈ reportW.results, r.severity ≠ Severity.Error) ∧
    lint_file failOracle Config.default "key: value".toList "f.yaml" =
      some reportW :=
  ⟨passed_iff_no_error failOracle Config.default "key: value".toList "f.yaml"
      reportW (by decide), by decide⟩

/-- C7: a line is flagged by the line-length rule iff its length strictly
exceeds the configured maximum (so a line of length exactly `max` is never
flagged), and every diagnostic of this rule is a Warning at column `max + 1`
with rule id "line-length", for every configuration. -/
theorem line_length_boundary (config : Config) (content : Line)
    (file : String) (i : Nat) (l : Line)
    (h : (rustLines content)[i]? = some l) :
    ((∃ r ∈ check_line_length config content file, r.line = i + 1) ↔
      l.length > config.rules.line_length.max) ∧
    ∀ r ∈ check_line_length config content file,
      r.severity = Severity.Warning ∧
      r.column = config.rules.line_length.max + 1 ∧
      r.rule = "line-length" := by
  have hmem : ∀ r : LintResult, r ∈ check_line_length config content file ↔
      ∃ j a, (rustLines content)[j]? = some a ∧
        r ∈ if a.length > config.rules.line_length.max then
          [{ file := file, line := j + 1,
             column := config.rules.line_length.max + 1,
             severity := Severity.Warning, rule := "line-length",
             message := "Line too long (" ++ toString a.length ++ " > " ++
               toString config.rules.line_length.max ++ ")",
             snippet := String.mk a }] else [] := by
    intro r
    exact mem_flatten_enum
      (fun j a =>
        if a.length > config.rules.line_length.max then
          [{ file := file, line := j + 1,
             column := config.rules.line_length.max + 1,
             severity := Severity.Warning, rule := "line-length",
             message := "Line too long (" ++ toString a.length ++ " > " ++
               toString config.rules.line_length.max ++ ")",
             snippet := String.mk a }] else [])
      (rustLines content) r
  constructor
  · constructor
    · rintro ⟨r, hr, hline⟩
      rcases (hmem r).1 hr with ⟨j, a, hget, hin⟩
      by_cases hlen : a.length > config.rules.line_length.max
      · simp only [if_pos hlen, List.mem_singleton] at hin
        subst hin
        simp only at hline
        have hj : j = i := by omega
        subst hj
        rw [h] at hget
        cases hget
        exact hlen
      · simp [if_neg hlen] at hin
    · intro hlen
      refine ⟨{ file := file, line := i + 1,
                column := config.rules.line_length.max + 1,
                severity := Severity.Warning, rule := "line-length",
                message := "Line too long (" ++ toString l.length ++ " > " ++
                  toString config.rules.line_length.max ++ ")",
                snippet := String.mk l },
              (hmem _).2 ⟨i, l, h, ?_⟩, rfl⟩
      simp [if_pos hlen]
  · intro r hr
    rcases (hmem r).1 hr with ⟨j, a, hget, hin⟩
    by_cases hlen : a.length > config.rules.line_length.max
    · simp only [if_pos hlen, List.mem_singleton] at hin
      subst hin
      exact ⟨rfl, rfl, rfl⟩
    · simp [if_neg hlen] at hin

/-- Witness for C7: with `max = 1` the two-character line "ab" is flagged. -/
theorem line_length_boundary_witness :
    (∃ r ∈ check_line_length configMax1 "ab".toList "f", r.line = 0 + 1) ∧
    ∀ r ∈ check_line_length configMax1 "ab".toList "f",
      r.severity = Severity.Warning ∧
      r.column = configMax1.rules.line_length.max + 1 ∧
      r.rule = "line-length" :=
  ⟨(line_length_boundary configMax1 "ab".toList "f" 0 "ab".toList
      (by decide)).1.mpr (by decide),
   (line_length_boundary configMax1 "ab".toList "f" 0 "ab".toList
      (by decide)).2⟩

/-- C8: every line ending in a space or tab is flagged by the trailing-spaces
rule at `(line, length-of-line)` with rule id "trailing-spaces", for every
configured severity (including Off): the configured level only fills the
diagnostic's severity field and never suppresses detection. -/
theorem trailing_spaces_always_flagged (config : Config) (content : Line)
    (file : String) (i : Nat) (l : Line)
    (h : (rustLines content)[i]? = some l) (he : endsWithST l = true) :
    ∃ r ∈ check_trailing_spaces config content file,
      r.line = i + 1 ∧ r.column = l.length ∧ r.rule = "trailing-spaces" ∧
      r.severity = config.rules.trailing_spaces.level := by
  have hmem : ∀ r : LintResult, r ∈ check_trailing_spaces config content file ↔
      ∃ j a, (rustLines content)[j]? = some a ∧
        r ∈ if endsWithST a then
          [{ file := file, line := j + 1, column := a.length,
             severity := config.rules.trailing_spaces.level,
             rule := "trailing-spaces",
             message := "Trailing spaces are not allowed",
             snippet := String.mk a }] else ([] : List LintResult) := by
    intro r
    exact mem_flatten_enum
      (fun j a =>
        if endsWithST a then
          [{ file := file, line := j + 1, column := a.length,
             severity := config.rules.trailing_spaces.level,
             rule := "trailing-spaces",
             message := "Trailing spaces are not allowed",
             snippet := String.mk a }] else [])
      (rustLines content) r
  refine ⟨{ file := file, line := i + 1, column := l.length,
            severity := config.rules.trailing_spaces.level,
            rule := "trailing-spaces",
            message := "Trailing spaces are not allowed",
            snippet := String.mk l },
          (hmem _).2 ⟨i, l, h, ?_⟩, rfl, rfl, rfl, rfl⟩
  simp [if_pos he]

/-- Witness for C8: a line ending in a space is flagged even at severity Off. -/
theorem trailing_spaces_always_flagged_witness :
    ∃ r ∈ check_trailing_spaces configTrailingOff "a ".toList "f",
      r.line = 0 + 1 ∧ r.column = ("a ".toList).length ∧
      r.rule = "trailing-spaces" ∧
      r.severity = configTrailingOff.rules.trailing_spaces.level :=
  trailing_spaces_always_flagged configTrailingOff "a ".toList "f" 0
    "a ".toList (by decide) (by decide)

/-- `mapM` over `Option` fails as soon as one element fails. -/
theorem mapM_eq_none_of_mem {α β : Type} (f : α → Option β) :
    ∀ (ls : List α) (a : α), a ∈ ls → f a = none → ls.mapM f = none := by
  intro ls
  induction ls with
  | nil => intro a ha; cases ha
  | cons b rest ih =>
    intro a ha hf
    rw [List.mapM_cons]
    rcases List.mem_cons.1 ha with rfl | hmem
    · rw [hf]; rfl
    · cases hb : f b with
      | none => rfl
      | some x => rw [ih a hmem hf]; rfl

/-- C9: with a configured indentation unit of 0 spaces, both the indentation
check (via `leading_spaces % 0`) and the indentation auto-fix (via
`leading_spaces / 0`) panic on any non-blank line beginning with a space, and
so does the whole `fix_content` rewrite. -/
theorem indentation_zero_spaces_panics (config : Config) (content : Line)
    (file : String) (l : Line)
    (hs : config.rules.indentation.spaces = 0)
    (hmem : l ∈ rustLines content) (hnb : isBlank l = false)
    (hsp : l.head? = some ' ') :
    check_indentation config content file = none ∧
    fix_indentation config (rustLines content) = none ∧
    fix_content config content = none := by
  have hfixline : fixIndentLine config.rules.indentation.spaces l = none := by
    rw [fixIndentLine, hnb, hs]
    simp [hsp]
  have hfix : fix_indentation config (rustLines content) = none :=
    mapM_eq_none_of_mem _ _ l hmem hfixline
  refine ⟨?_, hfix, ?_⟩
  · rcases List.mem_iff_getElem?.1 hmem with ⟨i, hget⟩
    have henum : ((i, l) : Nat × Line) ∈ (rustLines content).enum :=
      List.mk_mem_enum_iff_getElem?.2 hget
    have hline : checkIndentLine config.rules.indentation.spaces file
        (i + 1) l = none := by
      rw [checkIndentLine, hnb, hs]
      simp [hsp]
    rw [check_indentation,
      mapM_eq_none_of_mem _ _ ((i, l) : Nat × Line) henum hline]
    rfl
  · rw [fix_content]
    rw [hfix]
    rfl

/-- Witness for C9 on the document `" a"`. -/
theorem indentation_zero_spaces_panics_witness :
    check_indentation configSpaces0 " a".toList "f" = none ∧
    fix_indentation configSpaces0 (rustLines " a".toList) = none ∧
    fix_content configSpaces0 " a".toList = none :=
  indentation_zero_spaces_panics configSpaces0 " a".toList "f" " a".toList
    rfl (by decide) (by decide) (by decide)

/-- C1: over the duplicate-preserving mapping model, the duplicates check on
key sequence `[a, b, a]` yields exactly one diagnostic, rule id "duplicates",
naming key `a`; on three pairwise distinct keys `[a, b, c]` it yields none. -/
theorem duplicates_aba_one_diagnostic (config : Config) (file a b c : String)
    (v1 v2 v3 : Value) (hab : a ≠ b) (hac : a ≠ c) (hbc : b ≠ c) :
    check_duplicates config
        (Value.mapping [(Value.string a, v1), (Value.string b, v2),
                        (Value.string a, v3)]) file =
      [{ file := file, line := 1, column := 1,
         severity := config.rules.duplicates.level, rule := "duplicates",
         message := "Duplicate key: '" ++ a ++ "'", snippet := a }] ∧
    check_duplicates config
        (Value.mapping [(Value.string a, v1), (Value.string b, v2),
                        (Value.string c, v3)]) file = [] := by
  constructor
  · simp [check_duplicates, dupLoop, List.contains_cons, Ne.symm hab]
  · simp [check_duplicates, dupLoop, List.contains_cons, Ne.symm hab,
      Ne.symm hac, Ne.symm hbc]

/-- Witness for C1 at concrete keys. -/
theorem duplicates_aba_one_diagnostic_witness :
    check_duplicates Config.default
        (Value.mapping [(Value.string "a", Value.null),
                        (Value.string "b", Value.null),
                        (Value.string "a", Value.null)]) "f" =
      [{ file := "f", line := 1, column := 1,
         severity := Config.default.rules.duplicates.level,
         rule := "duplicates",
         message := "Duplicate key: '" ++ "a" ++ "'", snippet := "a" }] ∧
    check_duplicates Config.default
        (Value.mapping [(Value.string "a", Value.null),
                        (Value.string "b", Value.null),
                        (Value.string "c", Value.null)]) "f" = [] :=
  duplicates_aba_one_diagnostic Config.default "f" "a" "b" "c"
    Value.null Value.null Value.null (by decide) (by decide) (by decide)

/-- C10: if an intermediate segment of a dotted required-field path is
present but its value is not a mapping, `check_nested_field` emits nothing
and silently stops descending; an absent head segment yields exactly the one
"Missing required field" Error; and every diagnostic the walk ever emits
names a segment that is literally absent from the mapping reached at that
point. -/
theorem nested_field_stops_silently (file : String) :
    (∀ (m : List (Value × Value)) (k : String) (v : Value) (p : String)
        (rest : List String), lookupStr m k = some v →
        (∀ sub, v ≠ Value.mapping sub) →
        check_nested_field file m (k :: p :: rest) = []) ∧
    (∀ (m : List (Value × Value)) (k : String) (rest : List String),
        lookupStr m k = none →
        check_nested_field file m (k :: rest) = [missingFieldDiag file k]) ∧
    (∀ (parts : List String) (m : List (Value × Value)) (r : LintResult),
        r ∈ check_nested_field file m parts →
        ∃ pre k post m', parts = pre ++ k :: post ∧
          walkPath m pre = some m' ∧ lookupStr m' k = none ∧
          r = missingFieldDiag file k) := by
  refine ⟨?_, ?_, ?_⟩
  · intro m k v p rest hl hnm
    rw [check_nested_field, hl]
    cases v with
    | mapping sub => exact absurd rfl (hnm sub)
    | null => simp
    | bool b => simp
    | number n => simp
    | string s => simp
    | sequence vs => simp
  · intro m k rest hl
    rw [check_nested_field, hl]
  · intro parts
    induction parts with
    | nil =>
      intro m r hr
      rw [check_nested_field] at hr
      cases hr
    | cons k rest ih =>
      intro m r hr
      rw [check_nested_field] at hr
      cases hl : lookupStr m k with
      | none =>
        rw [hl] at hr
        rcases List.mem_singleton.1 hr with rfl
        exact ⟨[], k, rest, m, rfl, rfl, hl, rfl⟩
      | some v =>
        rw [hl] at hr
        cases v with
        | mapping sub =>
          by_cases hre : rest.isEmpty = true
          · simp [hre] at hr
          · simp only [hre, if_false] at hr
            rcases ih sub r hr with ⟨pre, k', post, m', hparts, hwalk, hl', hres⟩
            refine ⟨k :: pre, k', post, m', by rw [hparts]; rfl, ?_, hl', hres⟩
            rw [walkPath, hl]
            exact hwalk
        | null => simp at hr
        | bool b => simp at hr
        | number n => simp at hr
        | string s => simp at hr
        | sequence vs => simp at hr

/-- Witness for C10: the silent stop on a string-valued intermediate segment
and the one-Error absent case, at concrete inputs. -/
theorem nested_field_stops_silently_witness :
    check_nested_field "f"
        [(Value.string "metadata", Value.string "oops")]
        ["metadata", "name"] = [] ∧
    check_nested_field "f" [] ["apiVersion"] =
      [missingFieldDiag "f" "apiVersion"] :=
  ⟨(nested_field_stops_silently "f").1
      [(Value.string "metadata", Value.string "oops")] "metadata"
      (Value.string "oops") "name" [] rfl (by intro sub h; cases h),
   (nested_field_stops_silently "f").2.1 [] "apiVersion" [] rfl⟩

/-- Rust `str::contains` is literal substring containment. -/
theorem rustContains_iff (hay needle : Line) :
    rustContains hay needle = true ↔
      ∃ pre post, hay = pre ++ needle ++ post := by
  induction hay with
  | nil =>
    rw [rustContains]
    constructor
    · intro h
      refine ⟨[], [], ?_⟩
      rw [List.isEmpty_iff] at h
      rw [h]
      rfl
    · rintro ⟨pre, post, h⟩
      have hlen := congrArg List.length h
      simp at hlen
      rw [List.isEmpty_iff]
      exact List.eq_nil_of_length_eq_zero (by omega)
  | cons ch rest ih =>
    rw [rustContains]
    constructor
    · intro h
      rcases Bool.or_eq_true_iff.1 h with hp | hc
      · rcases List.isPrefixOf_iff_prefix.1 hp with ⟨t, ht⟩
        exact ⟨[], t, by rw [← ht]; rfl⟩
      · rcases ih.1 hc with ⟨pre, post, hh⟩
        exact ⟨ch :: pre, post, by simp [hh]⟩
    · rintro ⟨pre, post, hh⟩
      cases pre with
      | nil =>
        apply Bool.or_eq_true_iff.2
        left
        apply List.isPrefixOf_iff_prefix.2
        exact ⟨post, by simp [hh]⟩
      | cons p pre' =>
        apply Bool.or_eq_true_iff.2
        right
        rw [List.cons_append, List.cons_append] at hh
        cases hh
        exact ih.2 ⟨pre', post, rfl⟩

/-- C2 (amended): the required-fields rule applies iff the file path contains,
as a plain substring, the pattern with leading/trailing '*' stripped and then
leading/trailing '/' stripped; the default pattern `**/k8s/*.yaml` therefore
reduces to the literal substring `k8s/*.yaml` (not to `k8s`). -/
theorem required_pattern_is_substring_match (path pat : String) :
    (required_pattern_applies path pat = true ↔
      ∃ pre post, path.toList = pre ++ stripPattern pat ++ post) ∧
    stripPattern "**/k8s/*.yaml" = "k8s/*.yaml".toList := by
  constructor
  · exact rustContains_iff path.toList (stripPattern pat)
  · decide

/-- Witness for C2 (amended): the path `base/k8s/*.yaml` literally contains
`k8s/*.yaml`, so the rule applies to it. -/
theorem required_pattern_is_substring_match_witness :
    required_pattern_applies "base/k8s/*.yaml" "**/k8s/*.yaml" = true :=
  (required_pattern_is_substring_match "base/k8s/*.yaml" "**/k8s/*.yaml").1.mpr
    ⟨"base/".toList, [], by decide⟩

/-- Counterexample for C2 as stated: the pattern `**/k8s/*.yaml` does not
reduce to `k8s`, and the path `foo/k8s/app.yaml`, which contains `k8s` as a
substring, does not make the rule apply. -/
theorem required_pattern_counterexample :
    required_pattern_applies "foo/k8s/app.yaml" "**/k8s/*.yaml" = false ∧
    rustContains "foo/k8s/app.yaml".toList "k8s".toList = true ∧
    stripPattern "**/k8s/*.yaml" ≠ "k8s".toList := by decide

/-- C4 (amended): the leading-run half of the empty-lines check emits exactly
one Warning at (1,1) iff the leading blank-line count exceeds `max_start`
(regardless of how far it exceeds it), and `check_empty_lines` is that check
appended after the interior-run check (which can add further diagnostics for
the same leading run). -/
theorem empty_lines_start_exactly_one (config : Config) (content : Line)
    (file : String) :
    ((start_empty_results config.rules.empty_lines.max_start file
        (rustLines content)).length =
      if ((rustLines content).takeWhile isBlank).length >
          config.rules.empty_lines.max_start then 1 else 0) ∧
    check_empty_lines config content file =
      interior_empty_results config.rules.empty_lines.max_consecutive file
        (rustLines content) ++
      start_empty_results config.rules.empty_lines.max_start file
        (rustLines content) ∧
    ∀ r ∈ start_empty_results config.rules.empty_lines.max_start file
        (rustLines content),
      r.line = 1 ∧ r.column = 1 ∧ r.severity = Severity.Warning ∧
      r.rule = "empty-lines" := by
  refine ⟨?_, rfl, ?_⟩
  · rw [start_empty_results]
    by_cases h : ((rustLines content).takeWhile isBlank).length >
        config.rules.empty_lines.max_start
    · rw [if_pos h, if_pos h]
      rfl
    · rw [if_neg h, if_neg h]
      rfl
  · intro r hr
    rw [start_empty_results] at hr
    by_cases h : ((rustLines content).takeWhile isBlank).length >
        config.rules.empty_lines.max_start
    · rw [if_pos h] at hr
      rcases List.mem_singleton.1 hr with rfl
      exact ⟨rfl, rfl, rfl, rfl⟩
    · rw [if_neg h] at hr
      cases hr

/-- Witness for C4 (amended) on a document with three leading blank lines and
`max_start = 0`: the leading-run check emits exactly one diagnostic. -/
theorem empty_lines_start_exactly_one_witness :
    (start_empty_results Config.default.rules.empty_lines.max_start "f"
        (rustLines "\n\n\n".toList)).length =
      if ((rustLines "\n\n\n".toList).takeWhile isBlank).length >
          Config.default.rules.empty_lines.max_start then 1 else 0 :=
  (empty_lines_start_exactly_one Config.default "\n\n\n".toList "f").1

/-- Counterexample for C4 as stated: for the document `"\n\n\n"` (leading
blank count 3) under the default configuration (`max_start = 0`,
`max_consecutive = 2`), `check_empty_lines` produces two diagnostics, not
exactly one, because the interior-run check also fires on the leading run. -/
theorem empty_lines_counterexample :
    ((rustLines "\n\n\n".toList).takeWhile isBlank).length >
      Config.default.rules.empty_lines.max_start ∧
    (check_empty_lines Config.default "\n\n\n".toList "f").length = 2 := by
  decide

/-- The head of a `dropWhile` result fails the predicate. -/
theorem head?_dropWhile_false {α : Type} (p : α → Bool) (l : List α) :
    ∀ a, (l.dropWhile p).head? = some a → p a = false := by
  induction l with
  | nil => intro a h; cases h
  | cons b rest ih =>
    intro a h
    rw [List.dropWhile_cons] at h
    by_cases hb : p b = true
    · rw [if_pos hb] at h
      exact ih a h
    · rw [if_neg hb] at h
      cases h
      exact Bool.eq_false_iff.mpr hb

/-- `(l.reverse.dropWhile p).reverse` is a prefix of `l`. -/
theorem revDropRev_isPrefix {α : Type} (p : α → Bool) (l : List α) :
    (l.reverse.dropWhile p).reverse <+: l := by
  rcases (List.dropWhile_suffix p (l := l.reverse)) with ⟨t, ht⟩
  exact ⟨t.reverse, by rw [← List.reverse_append, ht, List.reverse_reverse]⟩

/-- The last element of `(l.reverse.dropWhile p).reverse` fails `p`. -/
theorem revDropRev_getLast_false {α : Type} (p : α → Bool) (l : List α) :
    ∀ a, ((l.reverse.dropWhile p).reverse).getLast? = some a → p a = false := by
  intro a h
  rw [List.getLast?_reverse] at h
  exact head?_dropWhile_false p l.reverse a h

/-- If the last element of `l` (when present) fails `p`, the
reverse-dropWhile-reverse trim leaves `l` unchanged. -/
theorem revDropRev_eq_self {α : Type} (p : α → Bool) (l : List α)
    (h : ∀ a, l.getLast? = some a → p a = false) :
    (l.reverse.dropWhile p).reverse = l := by
  cases hl : l.reverse with
  | nil =>
    have : l = [] := by
      have := congrArg List.reverse hl
      rwa [List.reverse_reverse] at this
    rw [this]
    rfl
  | cons a t =>
    have hlast : l.getLast? = some a := by
      rw [← List.head?_reverse, hl]
      rfl
    rw [List.dropWhile_cons, if_neg (by rw [h a hlast]; simp), ← hl,
      List.reverse_reverse]

/-- The reverse-dropWhile-reverse trim is empty iff every element passes. -/
theorem revDropRev_eq_nil_iff {α : Type} (p : α → Bool) (l : List α) :
    (l.reverse.dropWhile p).reverse = [] ↔ ∀ a ∈ l, p a = true := by
  rw [List.reverse_eq_nil_iff, List.dropWhile_eq_nil_iff]
  constructor
  · intro h a ha
    exact h a (List.mem_reverse.2 ha)
  · intro h a ha
    exact h a (List.mem_reverse.1 ha)

/-- Splitting off the trailing run: `l` is its trim followed by the trailing
run of elements passing `p`. -/
theorem revDropRev_decomp {α : Type} (p : α → Bool) (l : List α) :
    l = (l.reverse.dropWhile p).reverse ++ (l.reverse.takeWhile p).reverse ∧
    ∀ a ∈ (l.reverse.takeWhile p).reverse, p a = true := by
  constructor
  · rw [← List.reverse_append, List.takeWhile_append_dropWhile,
      List.reverse_reverse]
  · intro a ha
    exact List.mem_takeWhile_imp (List.mem_reverse.1 ha)

/-- Trimming from the right ignores an all-passing right block. -/
theorem revDropRev_append_pass {α : Type} (p : α → Bool) (a b : List α)
    (hb : ∀ x ∈ b, p x = true) :
    ((a ++ b).reverse.dropWhile p).reverse = (a.reverse.dropWhile p).reverse := by
  rw [List.reverse_append, List.dropWhile_append]
  have hnil : b.reverse.dropWhile p = [] := by
    rw [List.dropWhile_eq_nil_iff]
    intro x hx
    exact hb x (List.mem_reverse.1 hx)
  rw [hnil]
  rfl

/-- Trimming from the right distributes over an append whose right part does
not trim to nothing. -/
theorem revDropRev_append_right {α : Type} (p : α → Bool) (a b : List α)
    (hb : (b.reverse.dropWhile p).reverse ≠ []) :
    ((a ++ b).reverse.dropWhile p).reverse =
      a ++ (b.reverse.dropWhile p).reverse := by
  rw [List.reverse_append, List.dropWhile_append]
  have : (b.reverse.dropWhile p).isEmpty = false := by
    rw [Bool.eq_false_iff]
    intro hcon
    rw [List.isEmpty_iff] at hcon
    exact hb (by rw [hcon]; rfl)
  rw [this]
  simp

/-- A line is blank iff every character is whitespace. -/
theorem isBlank_iff (l : Line) : isBlank l = true ↔ ∀ c ∈ l, isWs c = true := by
  rw [isBlank, trimL, trimEndL, trimStartL, List.isEmpty_iff]
  rw [revDropRev_eq_nil_iff]
  constructor
  · intro h c hc
    rcases List.mem_append.1
        ((List.takeWhile_append_dropWhile isWs l) ▸ hc) with h1 | h2
    · exact List.mem_takeWhile_imp h1
    · exact h c h2
  · intro h c hc
    exact h c ((List.dropWhile_sublist isWs).mem hc)

/-- Blank lines trim to nothing from the right. -/
theorem trimEndL_of_blank (l : Line) (h : isBlank l = true) : trimEndL l = [] := by
  rw [trimEndL, revDropRev_eq_nil_iff]
  exact (isBlank_iff l).1 h

/-- The right trim of a line is a prefix of it. -/
theorem trimEndL_isPrefix (l : Line) : trimEndL l <+: l :=
  revDropRev_isPrefix isWs l

/-- The last character of a right-trimmed line is not whitespace. -/
theorem trimEndL_getLast_not_ws (l : Line) :
    ∀ c, (trimEndL l).getLast? = some c → isWs c = false :=
  revDropRev_getLast_false isWs l

/-- Right-trimming is idempotent. -/
theorem trimEndL_trimEndL (l : Line) : trimEndL (trimEndL l) = trimEndL l :=
  revDropRev_eq_self isWs (trimEndL l) (trimEndL_getLast_not_ws l)

/-- A line whose last character (when present) is not whitespace right-trims
to itself. -/
theorem trimEndL_eq_self (l : Line)
    (h : ∀ c, l.getLast? = some c → isWs c = false) : trimEndL l = l :=
  revDropRev_eq_self isWs l h

/-- Right-trimming an append whose right part does not vanish. -/
theorem trimEndL_append_right (a b : Line) (hb : trimEndL b ≠ []) :
    trimEndL (a ++ b) = a ++ trimEndL b :=
  revDropRev_append_right isWs a b hb

/-- `trimEndL l = []` iff the line is blank. -/
theorem trimEndL_eq_nil_iff (l : Line) : trimEndL l = [] ↔ isBlank l = true := by
  rw [trimEndL, revDropRev_eq_nil_iff]
  exact (isBlank_iff l).symm

/-- The head of a left-trimmed line is not whitespace. -/
theorem trimStartL_head_not_ws (l : Line) :
    ∀ c, (trimStartL l).head? = some c → isWs c = false :=
  head?_dropWhile_false isWs l

/-- A line whose head (when present) is not whitespace left-trims to itself. -/
theorem trimStartL_eq_self (l : Line)
    (h : ∀ c, l.head? = some c → isWs c = false) : trimStartL l = l := by
  cases l with
  | nil => rfl
  | cons c rest =>
    rw [trimStartL, List.dropWhile_cons, if_neg]
    rw [h c rfl]
    simp

/-- Left-trimming ignores an all-whitespace left block. -/
theorem trimStartL_ws_append (w m : Line) (hw : ∀ c ∈ w, isWs c = true) :
    trimStartL (w ++ m) = trimStartL m := by
  rw [trimStartL, trimStartL, List.dropWhile_append]
  have : (w.dropWhile isWs).isEmpty = true := by
    rw [List.isEmpty_iff, List.dropWhile_eq_nil_iff]
    exact hw
  rw [this]
  rfl

/-- Left-trimming preserves blankness. -/
theorem isBlank_trimStartL (l : Line) : isBlank (trimStartL l) = isBlank l := by
  by_cases h : isBlank l = true
  · rw [h]
    rw [isBlank_iff]
    intro c hc
    exact (isBlank_iff l).1 h c ((List.dropWhile_sublist isWs).mem hc)
  · rw [Bool.eq_false_iff.2 h, Bool.eq_false_iff]
    intro hcon
    apply h
    rw [isBlank_iff]
    intro c hc
    rcases List.mem_append.1
        ((List.takeWhile_append_dropWhile isWs l) ▸ hc) with h1 | h2
    · exact List.mem_takeWhile_imp h1
    · exact (isBlank_iff _).1 hcon c h2

/-- Right-trimming preserves blankness. -/
theorem isBlank_trimEndL (l : Line) : isBlank (trimEndL l) = isBlank l := by
  by_cases h : isBlank l = true
  · rw [h, isBlank_iff]
    intro c hc
    rcases trimEndL_isPrefix l with ⟨t, ht⟩
    exact (isBlank_iff l).1 h c (ht ▸ List.mem_append_left t hc)
  · rw [Bool.eq_false_iff.2 h, Bool.eq_false_iff]
    intro hcon
    apply h
    rw [isBlank_iff]
    intro c hc
    rcases (revDropRev_decomp isWs l).1 with hdec
    rcases List.mem_append.1 (hdec ▸ hc) with h1 | h2
    · exact (isBlank_iff _).1 hcon c h1
    · exact (revDropRev_decomp isWs l).2 c h2

/-- The head of a nonempty prefix agrees with the head of the whole list. -/
theorem head?_of_isPrefix {α : Type} {p l : List α} (h : p <+: l)
    (hp : p ≠ []) : p.head? = l.head? := by
  rcases h with ⟨t, ht⟩
  cases p with
  | nil => exact absurd rfl hp
  | cons a p' => rw [← ht]; rfl

/-- A map that preserves whitespace-status commutes with `dropWhile isWs`. -/
theorem dropWhile_map_inv {f : Char → Char}
    (hf : ∀ c, isWs (f c) = isWs c) (l : Line) :
    (l.map f).dropWhile isWs = (l.dropWhile isWs).map f := by
  induction l with
  | nil => rfl
  | cons c rest ih =>
    rw [List.map_cons, List.dropWhile_cons, List.dropWhile_cons, hf c]
    by_cases hc : isWs c = true
    · rw [if_pos hc, if_pos hc, ih]
    · rw [if_neg hc, if_neg hc, List.map_cons]

/-- The quote replacement preserves whitespace-status. -/
theorem isWs_mapQuoteChar (c : Char) : isWs (mapQuoteChar c) = isWs c := by
  rw [mapQuoteChar]
  by_cases h : c = '\''
  · rw [if_pos h, h]
    decide
  · rw [if_neg h]

/-- The quote replacement never produces a space from a non-space. -/
theorem mapQuoteChar_eq_space_iff (c : Char) :
    mapQuoteChar c = ' ' ↔ c = ' ' := by
  rw [mapQuoteChar]
  by_cases h : c = '\''
  · rw [if_pos h, h]
    constructor
    · intro hcon; cases hcon
    · intro hcon; cases hcon
  · rw [if_neg h]

/-- The quote replacement is idempotent. -/
theorem mapQuoteChar_idem (c : Char) :
    mapQuoteChar (mapQuoteChar c) = mapQuoteChar c := by
  by_cases h : c = '\''
  · rw [h]
    decide
  · have hc : mapQuoteChar c = c := by rw [mapQuoteChar, if_neg h]
    rw [hc, hc]

/-- Left trim commutes with the quote map. -/
theorem trimStartL_map_quote (l : Line) :
    trimStartL (l.map mapQuoteChar) = (trimStartL l).map mapQuoteChar := by
  rw [trimStartL, trimStartL]
  exact dropWhile_map_inv isWs_mapQuoteChar l

/-- Right trim commutes with the quote map. -/
theorem trimEndL_map_quote (l : Line) :
    trimEndL (l.map mapQuoteChar) = (trimEndL l).map mapQuoteChar := by
  rw [trimEndL, trimEndL, ← List.map_reverse,
    dropWhile_map_inv isWs_mapQuoteChar, List.map_reverse]

/-- Blankness is invariant under the quote map. -/
theorem isBlank_map_quote (l : Line) :
    isBlank (l.map mapQuoteChar) = isBlank l := by
  rw [isBlank, isBlank, trimL, trimL, trimStartL_map_quote, trimEndL_map_quote]
  cases trimEndL (trimStartL l) with
  | nil => rfl
  | cons c rest => rfl

/-- Non-blank lines stay non-blank after left trim, and the left trim of a
non-blank line is non-empty. -/
theorem trimStartL_ne_nil_of_not_blank (l : Line) (h : isBlank l = false) :
    trimStartL l ≠ [] := by
  intro hcon
  have : isBlank (trimStartL l) = true := by rw [hcon]; rfl
  rw [isBlank_trimStartL] at this
  rw [this] at h
  cases h

/-- The right trim of a non-blank line is non-empty. -/
theorem trimEndL_ne_nil_of_not_blank (l : Line) (h : isBlank l = false) :
    trimEndL l ≠ [] := by
  intro hcon
  rw [trimEndL_eq_nil_iff] at hcon
  rw [hcon] at h
  cases h

/-- `mapM` over `Option` of a pointwise-fixed function is the identity. -/
theorem mapM_eq_some_self {α : Type} (f : α → Option α) :
    ∀ (ls : List α), (∀ a ∈ ls, f a = some a) → ls.mapM f = some ls := by
  intro ls
  induction ls with
  | nil => intro _; rfl
  | cons b rest ih =>
    intro h
    rw [List.mapM_cons, h b (List.mem_cons_self b rest),
      ih (fun a ha => h a (List.mem_cons_of_mem b ha))]
    rfl

/-- Successful `mapM` over `Option` maps members to members. -/
theorem mapM_mem {α β : Type} (f : α → Option β) :
    ∀ (ls : List α) (ls' : List β), ls.mapM f = some ls' →
      ∀ b ∈ ls', ∃ a ∈ ls, f a = some b := by
  intro ls
  induction ls with
  | nil =>
    intro ls' h b hb
    cases h
    cases hb
  | cons a rest ih =>
    intro ls' h b hb
    rw [List.mapM_cons] at h
    cases ha : f a with
    | none => rw [ha] at h; cases h
    | some b0 =>
      rw [ha] at h
      cases hrest : rest.mapM f with
      | none => rw [hrest] at h; cases h
      | some bs =>
        rw [hrest] at h
        have : b0 :: bs = ls' := by
          cases h
          rfl
        rw [← this] at hb
        rcases List.mem_cons.1 hb with rfl | hbs
        · exact ⟨a, List.mem_cons_self a rest, ha⟩
        · rcases ih bs hrest b hbs with ⟨a', ha', hfa'⟩
          exact ⟨a', List.mem_cons_of_mem a ha', hfa'⟩

/-- A pointwise-fixed map is the identity. -/
theorem map_eq_self_of {α : Type} (f : α → α) :
    ∀ (ls : List α), (∀ a ∈ ls, f a = a) → ls.map f = ls := by
  intro ls
  induction ls with
  | nil => intro _; rfl
  | cons b rest ih =>
    intro h
    rw [List.map_cons, h b (List.mem_cons_self b rest),
      ih (fun a ha => h a (List.mem_cons_of_mem b ha))]

/-- `splitChar` of a separator-free string is one part. -/
theorem splitChar_of_not_mem (c : Char) (l : Line) (h : c ∉ l) :
    splitChar c l = [l] := by
  induction l with
  | nil => rfl
  | cons a rest ih =>
    rw [splitChar, if_neg (fun hac : a = c =>
        h (hac ▸ List.mem_cons_self a rest)),
      ih (fun hc => h (List.mem_cons_of_mem a hc))]
    rfl

/-- `splitChar` peels off the part before the first separator. -/
theorem splitChar_append_cons (c : Char) (l t : Line) (h : c ∉ l) :
    splitChar c (l ++ c :: t) = l :: splitChar c t := by
  induction l with
  | nil => rw [List.nil_append, splitChar, if_pos rfl]
  | cons a rest ih =>
    rw [List.cons_append, splitChar,
      if_neg (fun hac : a = c => h (hac ▸ List.mem_cons_self a rest)),
      ih (fun hc => h (List.mem_cons_of_mem a hc))]
    rfl

/-- `joinNl` on a list with at least two lines. -/
theorem joinNl_cons_cons (l l' : Line) (ls : List Line) :
    joinNl (l :: l' :: ls) = l ++ '\n' :: joinNl (l' :: ls) := rfl

/-- Splitting the newline-join (with final newline) recovers the lines plus
one empty tail part. -/
theorem splitChar_joinNl (ls : List Line) (h : ls ≠ [])
    (hnl : ∀ l ∈ ls, '\n' ∉ l) :
    splitChar '\n' (joinNl ls ++ ['\n']) = ls ++ [[]] := by
  induction ls with
  | nil => exact absurd rfl h
  | cons l ls' ih =>
    cases ls' with
    | nil =>
      have : joinNl [l] ++ ['\n'] = l ++ '\n' :: [] := rfl
      rw [this, splitChar_append_cons '\n' l []
        (hnl l (List.mem_cons_self l []))]
      rfl
    | cons l2 ls'' =>
      have hstep : joinNl (l :: l2 :: ls'') ++ ['\n'] =
          l ++ '\n' :: (joinNl (l2 :: ls'') ++ ['\n']) := by
        rw [joinNl_cons_cons]
        simp
      rw [hstep, splitChar_append_cons '\n' l _
        (hnl l (List.mem_cons_self l (l2 :: ls''))),
        ih (by intro hcon; cases hcon)
          (fun a ha => hnl a (List.mem_cons_of_mem l ha))]
      rfl

/-- Round trip: `rustLines` of a newline-join with trailing newline recovers
the lines, provided no line contains a newline or ends in a carriage
return. -/
theorem rustLines_joinNl (ls : List Line) (h : ls ≠ [])
    (hnl : ∀ l ∈ ls, '\n' ∉ l)
    (hcr : ∀ l ∈ ls, l.getLast? ≠ some '\r') :
    rustLines (joinNl ls ++ ['\n']) = ls := by
  rw [rustLines]
  simp only [splitChar_joinNl ls h hnl]
  rw [List.getLast?_concat]
  rw [if_pos rfl, List.dropLast_concat]
  exact map_eq_self_of stripCr ls
    (fun l hl => by rw [stripCr, if_neg (hcr l hl)])

/-- Every part of `splitChar` omits the separator. -/
theorem splitChar_not_mem (c : Char) (s : Line) :
    ∀ p ∈ splitChar c s, c ∉ p := by
  induction s with
  | nil =>
    intro p hp
    rw [splitChar] at hp
    rcases List.mem_singleton.1 hp with rfl
    exact List.not_mem_nil c
  | cons a rest ih =>
    intro p hp
    rw [splitChar] at hp
    by_cases hac : a = c
    · rw [if_pos hac] at hp
      rcases List.mem_cons.1 hp with rfl | hmem
      · exact List.not_mem_nil c
      · exact ih p hmem
    · rw [if_neg hac] at hp
      cases hsp : splitChar c rest with
      | nil =>
        rw [hsp] at hp
        rw [consHead] at hp
        rcases List.mem_singleton.1 hp with rfl
        intro hmem
        rcases List.mem_singleton.1 hmem with rfl
        exact hac rfl
      | cons p0 ps =>
        rw [hsp] at hp
        rw [consHead] at hp
        rcases List.mem_cons.1 hp with rfl | hmem
        · intro hmem
          rcases List.mem_cons.1 hmem with rfl | hmem0
          · exact hac rfl
          · exact ih p0 (hsp ▸ List.mem_cons_self p0 ps) hmem0
        · exact ih p (hsp ▸ List.mem_cons_of_mem p0 hmem)

/-- Characters of `stripCr l` come from `l`. -/
theorem mem_of_mem_stripCr (l : Line) (c : Char) (h : c ∈ stripCr l) :
    c ∈ l := by
  rw [stripCr] at h
  by_cases hc : l.getLast? = some '\r'
  · rw [if_pos hc] at h
    exact (List.dropLast_sublist l).mem h
  · rwa [if_neg hc] at h

/-- No line produced by `rustLines` contains a newline. -/
theorem rustLines_no_newline (s : Line) :
    ∀ l ∈ rustLines s, '\n' ∉ l := by
  intro l hl
  rw [rustLines] at hl
  rcases List.mem_map.1 hl with ⟨p, hp, rfl⟩
  intro hmem
  have hp' : p ∈ splitChar '\n' s := by
    by_cases hlast : (splitChar '\n' s).getLast? = some []
    · rw [if_pos hlast] at hp
      exact (List.dropLast_sublist _).mem hp
    · rwa [if_neg hlast] at hp
  exact splitChar_not_mem '\n' s p hp' (mem_of_mem_stripCr p '\n' hmem)

/-- `findSpan` skips a non-quote head character. -/
theorem findSpan_cons_not_quote (c : Char) (l : Line)
    (h : ¬(c = '"' ∨ c = '\'')) : findSpan (c :: l) = findSpan l := by
  rw [findSpan, if_neg h]

/-- A line without quote characters has no span. -/
theorem findSpan_none_of_no_quote (l : Line)
    (h : ∀ c ∈ l, ¬(c = '"' ∨ c = '\'')) : findSpan l = none := by
  induction l with
  | nil => rfl
  | cons c rest ih =>
    rw [findSpan_cons_not_quote c rest (h c (List.mem_cons_self c rest))]
    exact ih (fun a ha => h a (List.mem_cons_of_mem c ha))

/-- `findClose` found in the left part is stable under appending. -/
theorem findClose_append_some (q : Char) (a w ct : Line)
    (h : findClose q a = some ct) : findClose q (a ++ w) = some ct := by
  induction a generalizing ct with
  | nil => cases h
  | cons c rest ih =>
    rw [findClose] at h
    rw [List.cons_append, findClose]
    by_cases hc : c = q
    · rw [if_pos hc] at h ⊢
      exact h
    · rw [if_neg hc] at h ⊢
      cases hrest : findClose q rest with
      | none => rw [hrest] at h; cases h
      | some ct0 =>
        rw [hrest] at h
        cases h
        rw [ih ct0 hrest]
        rfl

/-- `findClose` fails iff the closing character is absent. -/
theorem findClose_none_iff (q : Char) (l : Line) :
    findClose q l = none ↔ q ∉ l := by
  induction l with
  | nil =>
    constructor
    · intro _; exact List.not_mem_nil q
    · intro _; rfl
  | cons c rest ih =>
    rw [findClose]
    by_cases hc : c = q
    · rw [if_pos hc]
      constructor
      · intro h; cases h
      · intro h; exact absurd (hc ▸ List.mem_cons_self c rest) h
    · rw [if_neg hc]
      constructor
      · intro h hmem
        rcases List.mem_cons.1 hmem with rfl | hmem'
        · exact hc rfl
        · cases hrest : findClose q rest with
          | none => exact ih.1 hrest hmem'
          | some ct => rw [hrest] at h; cases h
      · intro h
        rw [ih.2 (fun hmem => h (List.mem_cons_of_mem c hmem))]
        rfl

/-- Appending quote-free text on the right does not change the first span. -/
theorem findSpan_append_no_quote (a w : Line)
    (hw : ∀ c ∈ w, ¬(c = '"' ∨ c = '\'')) :
    findSpan (a ++ w) = findSpan a := by
  induction a with
  | nil => rw [List.nil_append, findSpan_none_of_no_quote w hw]; rfl
  | cons c rest ih =>
    by_cases hq : c = '"' ∨ c = '\''
    · rw [List.cons_append, findSpan, if_pos hq, findSpan, if_pos hq]
      cases hcl : findClose c rest with
      | some ct => rw [findClose_append_some c rest w ct hcl]
      | none =>
        have hnw : c ∉ w := by
          intro hmem
          exact hw c hmem hq
        have : findClose c (rest ++ w) = none := by
          rw [findClose_none_iff]
          intro hmem
          rcases List.mem_append.1 hmem with h1 | h2
          · exact (findClose_none_iff c rest).1 hcl h1
          · exact hnw h2
        rw [this]
        exact ih
    · rw [List.cons_append, findSpan_cons_not_quote c _ hq,
        findSpan_cons_not_quote c _ hq]
      exact ih

/-- Whitespace characters are not quote characters. -/
theorem not_quote_of_ws (c : Char) (h : isWs c = true) :
    ¬(c = '"' ∨ c = '\'') := by
  intro hq
  rcases hq with rfl | rfl
  · cases h
  · cases h

/-- A whitespace prefix does not change the first span. -/
theorem findSpan_ws_append (w l : Line) (hw : ∀ c ∈ w, isWs c = true) :
    findSpan (w ++ l) = findSpan l := by
  induction w with
  | nil => rfl
  | cons c rest ih =>
    rw [List.cons_append, findSpan_cons_not_quote c _
      (not_quote_of_ws c (hw c (List.mem_cons_self c rest)))]
    exact ih (fun a ha => hw a (List.mem_cons_of_mem c ha))

/-- Right-trimming does not change the first span. -/
theorem findSpan_trimEndL (l : Line) : findSpan (trimEndL l) = findSpan l := by
  rcases revDropRev_decomp isWs l with ⟨hdec, hws⟩
  conv_rhs => rw [hdec]
  rw [findSpan_append_no_quote _ _
    (fun c hc => not_quote_of_ws c (hws c hc))]
  rfl

/-- Left-trimming does not change the first span. -/
theorem findSpan_trimStartL (l : Line) : findSpan (trimStartL l) = findSpan l := by
  conv_rhs => rw [← List.takeWhile_append_dropWhile isWs l]
  rw [findSpan_ws_append _ _ (fun c hc => List.mem_takeWhile_imp hc)]
  rfl

/-- The indentation fix does not change the first span. -/
theorem fixIndentLine_findSpan (s : Nat) (l l' : Line)
    (h : fixIndentLine s l = some l') : findSpan l' = findSpan l := by
  rw [fixIndentLine] at h
  by_cases hb : isBlank l = true
  · rw [if_pos hb] at h
    cases h
    rfl
  · rw [if_neg hb] at h
    by_cases hh : l.head? = some ' '
    · rw [if_pos hh] at h
      by_cases hs : s = 0
      · rw [if_pos hs] at h
        cases h
      · rw [if_neg hs] at h
        cases h
        rw [findSpan_ws_append _ _
          (fun c hc => by rw [List.eq_of_mem_replicate hc]; rfl)]
        exact findSpan_trimStartL l
    · rw [if_neg hh] at h
      cases h
      rfl

/-- Equal first spans give equal strippability. -/
theorem strippable_congr (a b : Line) (h : findSpan a = findSpan b) :
    strippable a = strippable b := by
  rw [strippable, strippable, h]

/-- The head of a positive space-run append is a space. -/
theorem head?_replicate_space_append (n : Nat) (m : Line) (hn : n ≠ 0) :
    (List.replicate n ' ' ++ m).head? = some ' ' := by
  cases n with
  | zero => exact absurd rfl hn
  | succ n' => rfl

/-- Applying the indentation fix to the right-trim of its own output is the
identity. -/
theorem fixIndentLine_trimEnd (s : Nat) (l l' : Line)
    (h : fixIndentLine s l = some l') :
    fixIndentLine s (trimEndL l') = some (trimEndL l') := by
  rw [fixIndentLine] at h
  by_cases hb : isBlank l = true
  · rw [if_pos hb] at h
    cases h
    rw [trimEndL_of_blank l hb]
    rfl
  · rw [if_neg hb] at h
    by_cases hh : l.head? = some ' '
    · rw [if_pos hh] at h
      by_cases hs : s = 0
      · rw [if_pos hs] at h
        cases h
      · rw [if_neg hs] at h
        cases h
        have hbm : isBlank (trimStartL l) = false := by
          rw [isBlank_trimStartL]
          exact Bool.eq_false_iff.2 hb
        have hem : trimEndL (trimStartL l) ≠ [] :=
          trimEndL_ne_nil_of_not_blank _ hbm
        rw [trimEndL_append_right _ _ hem]
        have hbm' : isBlank (trimEndL (trimStartL l)) = false := by
          rw [isBlank_trimEndL]
          exact hbm
        rcases List.exists_cons_of_ne_nil hem with ⟨c0, m0, hm0⟩
        have hc0 : isWs c0 = false := by
          have hpre := head?_of_isPrefix (trimEndL_isPrefix (trimStartL l)) hem
          apply trimStartL_head_not_ws l
          rw [← hpre, hm0]
          rfl
        set n := (l.length - (trimStartL l).length) / s * s with hn
        by_cases hn0 : n = 0
        · rw [hn0, List.replicate_zero, List.nil_append]
          rw [fixIndentLine, hbm']
          have : (trimEndL (trimStartL l)).head? ≠ some ' ' := by
            rw [hm0]
            intro hcon
            have : c0 = ' ' := Option.some.inj hcon
            rw [this] at hc0
            cases hc0
          rw [if_neg (by simp)]
          rw [if_neg this]
        · rw [fixIndentLine]
          have hblank2 : isBlank (List.replicate n ' ' ++
              trimEndL (trimStartL l)) = false := by
            rw [Bool.eq_false_iff]
            intro hcon
            have := (isBlank_iff _).1 hcon c0
              (List.mem_append_right _ (by rw [hm0]; exact List.mem_cons_self c0 m0))
            rw [this] at hc0
            cases hc0
          rw [hblank2]
          rw [if_neg (by simp)]
          rw [if_pos (head?_replicate_space_append n _ hn0)]
          rw [if_neg hs]
          have htr : trimStartL (List.replicate n ' ' ++
              trimEndL (trimStartL l)) = trimEndL (trimStartL l) := by
            rw [trimStartL_ws_append _ _
              (fun c hc => by rw [List.eq_of_mem_replicate hc]; rfl)]
            apply trimStartL_eq_self
            intro c hc
            rw [hm0] at hc
            cases hc
            exact hc0
          rw [htr]
          have hlead : (List.replicate n ' ' ++
              trimEndL (trimStartL l)).length -
              (trimEndL (trimStartL l)).length = n := by
            rw [List.length_append, List.length_replicate]
            omega
          rw [hlead]
          have hdiv : n / s * s = n := by
            rw [hn]
            rw [Nat.mul_div_cancel _ (Nat.pos_of_ne_zero hs)]
          show some (List.replicate (n / s * s) ' ' ++
            trimEndL (trimStartL l)) = _
          rw [hdiv]
    · rw [if_neg hh] at h
      cases h
      have hbt : isBlank (trimEndL l) = false := by
        rw [isBlank_trimEndL]
        exact Bool.eq_false_iff.2 hb
      rw [fixIndentLine, hbt]
      rw [if_neg (by simp)]
      rw [if_neg (by
        rw [head?_of_isPrefix (trimEndL_isPrefix l)
          (trimEndL_ne_nil_of_not_blank l (Bool.eq_false_iff.2 hb))]
        exact hh)]

/-- The indentation fix commutes with the blind quote replacement. -/
theorem fixIndentLine_map_quote (s : Nat) (l : Line) :
    fixIndentLine s (l.map mapQuoteChar) =
      (fixIndentLine s l).map (List.map mapQuoteChar) := by
  rw [fixIndentLine, fixIndentLine, isBlank_map_quote]
  by_cases hb : isBlank l = true
  · rw [if_pos hb, if_pos hb]
    rfl
  · rw [if_neg hb, if_neg hb]
    have hhead : ((l.map mapQuoteChar).head? = some ' ') ↔
        (l.head? = some ' ') := by
      rw [List.head?_map]
      cases l.head? with
      | none => simp
      | some c =>
        simp only [Option.map_some', Option.some.injEq]
        exact mapQuoteChar_eq_space_iff c
    by_cases hh : l.head? = some ' '
    · rw [if_pos (hhead.2 hh), if_pos hh]
      by_cases hs : s = 0
      · rw [if_pos hs, if_pos hs]
        rfl
      · rw [if_neg hs, if_neg hs]
        show some _ = some _
        rw [trimStartL_map_quote, List.length_map, List.length_map]
        rw [List.map_append, List.map_replicate]
        rfl
    · rw [if_neg (fun hcon => hh (hhead.1 hcon)), if_neg hh]
      rfl

/-- Characters of the indentation-fix output are spaces or input characters. -/
theorem fixIndentLine_mem (s : Nat) (l l' : Line)
    (h : fixIndentLine s l = some l') :
    ∀ c ∈ l', c = ' ' ∨ c ∈ l := by
  rw [fixIndentLine] at h
  by_cases hb : isBlank l = true
  · rw [if_pos hb] at h
    cases h
    intro c hc
    exact Or.inr hc
  · rw [if_neg hb] at h
    by_cases hh : l.head? = some ' '
    · rw [if_pos hh] at h
      by_cases hs : s = 0
      · rw [if_pos hs] at h
        cases h
      · rw [if_neg hs] at h
        cases h
        intro c hc
        rcases List.mem_append.1 hc with h1 | h2
        · exact Or.inl (List.eq_of_mem_replicate h1)
        · exact Or.inr ((List.dropWhile_sublist isWs).mem h2)
    · rw [if_neg hh] at h
      cases h
      intro c hc
      exact Or.inr hc

/-- A right-trimmed line stays fixed under right trim after quote mapping. -/
theorem trimEndL_map_quote_self (l : Line) (h : trimEndL l = l) :
    trimEndL (l.map mapQuoteChar) = l.map mapQuoteChar := by
  rw [trimEndL_map_quote, h]

/-- Counting through an initial blank block. -/
theorem runsLeAux_blanks (maxC : Nat) (b : List Line) :
    ∀ (rest : List Line) (cnt : Nat), (∀ l ∈ b, isBlank l = true) →
      cnt + b.length ≤ maxC →
      runsLeAux maxC cnt (b ++ rest) =
        runsLeAux maxC (cnt + b.length) rest := by
  induction b with
  | nil =>
    intro rest cnt _ _
    rfl
  | cons l b' ih =>
    intro rest cnt hb hlen
    rw [List.length_cons] at hlen
    rw [List.cons_append, runsLeAux,
      if_pos (hb l (List.mem_cons_self l b'))]
    rw [ih rest (cnt + 1) (fun a ha => hb a (List.mem_cons_of_mem l ha))
      (by omega)]
    have hd : decide (cnt + 1 ≤ maxC) = true := by
      rw [decide_eq_true_iff]
      omega
    rw [hd, Bool.true_and]
    have harith : cnt + 1 + b'.length = cnt + (b'.length + 1) := by omega
    rw [harith, List.length_cons]

/-- The squeeze loop leaves a list alone when its pending prefix is short
enough and no later run exceeds the bound. -/
theorem squeezeAux_id (maxC : Nat) :
    ∀ (ls pending : List Line), pending.length ≤ maxC →
      runsLeAux maxC pending.length ls = true →
      squeezeAux maxC pending ls = pending ++ ls := by
  intro ls
  induction ls with
  | nil =>
    intro pending hp _
    rw [squeezeAux, Nat.sub_eq_zero_of_le hp, List.drop_zero, List.append_nil]
  | cons l ls' ih =>
    intro pending hp hr
    rw [runsLeAux] at hr
    by_cases hbl : isBlank l = true
    · rw [if_pos hbl, Bool.and_eq_true] at hr
      rcases hr with ⟨hd, hr'⟩
      rw [decide_eq_true_iff] at hd
      rw [squeezeAux, if_pos hbl]
      rw [ih (pending ++ [l]) (by rw [List.length_append]; simpa using hd)
        (by rw [List.length_append]; simpa using hr')]
      simp
    · rw [if_neg hbl] at hr
      rw [squeezeAux, if_neg hbl, Nat.sub_eq_zero_of_le hp, List.drop_zero]
      rw [ih [] (Nat.zero_le maxC) hr]
      simp

/-- The squeeze loop caps every run of blank lines at `maxC`. -/
theorem squeezeAux_capped (maxC : Nat) :
    ∀ (ls pending : List Line), (∀ l ∈ pending, isBlank l = true) →
      runsLeAux maxC 0 (squeezeAux maxC pending ls) = true := by
  intro ls
  induction ls with
  | nil =>
    intro pending hpb
    rw [squeezeAux]
    have h1 : ∀ l ∈ pending.drop (pending.length - maxC), isBlank l = true :=
      fun l hl => hpb l ((List.drop_sublist _ _).mem hl)
    have h2 : (pending.drop (pending.length - maxC)).length ≤ maxC := by
      rw [List.length_drop]
      omega
    have := runsLeAux_blanks maxC (pending.drop (pending.length - maxC)) [] 0
      h1 (by omega)
    rw [List.append_nil] at this
    rw [this]
    rfl
  | cons l ls' ih =>
    intro pending hpb
    rw [squeezeAux]
    by_cases hbl : isBlank l = true
    · rw [if_pos hbl]
      exact ih (pending ++ [l]) (by
        intro a ha
        rcases List.mem_append.1 ha with h1 | h2
        · exact hpb a h1
        · rcases List.mem_singleton.1 h2 with rfl
          exact hbl)
    · rw [if_neg hbl]
      have h1 : ∀ a ∈ pending.drop (pending.length - maxC), isBlank a = true :=
        fun a ha => hpb a ((List.drop_sublist _ _).mem ha)
      have h2 : (pending.drop (pending.length - maxC)).length ≤ maxC := by
        rw [List.length_drop]
        omega
      rw [runsLeAux_blanks maxC _ _ 0 h1 (by omega)]
      rw [runsLeAux, if_neg hbl]
      exact ih [] (by intro a ha; cases ha)

/-- Elements of the squeeze output come from the pending run or the input. -/
theorem squeezeAux_mem (maxC : Nat) :
    ∀ (ls pending : List Line) (l : Line),
      l ∈ squeezeAux maxC pending ls → l ∈ pending ∨ l ∈ ls := by
  intro ls
  induction ls with
  | nil =>
    intro pending l hl
    rw [squeezeAux] at hl
    exact Or.inl ((List.drop_sublist _ _).mem hl)
  | cons a ls' ih =>
    intro pending l hl
    rw [squeezeAux] at hl
    by_cases hbl : isBlank a = true
    · rw [if_pos hbl] at hl
      rcases ih (pending ++ [a]) l hl with h1 | h2
      · rcases List.mem_append.1 h1 with h3 | h4
        · exact Or.inl h3
        · rcases List.mem_singleton.1 h4 with rfl
          exact Or.inr (List.mem_cons_self _ _)
      · exact Or.inr (List.mem_cons_of_mem a h2)
    · rw [if_neg hbl] at hl
      rcases List.mem_append.1 hl with h1 | h2
      · exact Or.inl ((List.drop_sublist _ _).mem h1)
      · rcases List.mem_cons.1 h2 with rfl | h3
        · exact Or.inr (List.mem_cons_self _ _)
        · rcases ih [] l h3 with h4 | h5
          · cases h4
          · exact Or.inr (List.mem_cons_of_mem a h5)

/-- The squeeze loop preserves a non-blank last element. -/
theorem squeezeAux_getLast (maxC : Nat) :
    ∀ (ls pending : List Line) (a : Line), ls.getLast? = some a →
      isBlank a = false →
      (squeezeAux maxC pending ls).getLast? = some a := by
  intro ls
  induction ls with
  | nil =>
    intro pending a ha _
    cases ha
  | cons l ls' ih =>
    intro pending a ha hna
    cases ls' with
    | nil =>
      have hal : a = l := by
        have : (l :: ([] : List Line)).getLast? = some l := rfl
        rw [this] at ha
        exact (Option.some.inj ha).symm
      rw [squeezeAux]
      rw [if_neg (by rw [hal] at hna; rw [hna]; simp)]
      rw [hal]
      have : squeezeAux maxC [] ([] : List Line) = [] := by
        rw [squeezeAux]
        exact List.drop_nil
      rw [this]
      exact List.getLast?_concat _
    | cons l2 ls'' =>
      rw [List.getLast?_cons_cons] at ha
      rw [squeezeAux]
      by_cases hbl : isBlank l = true
      · rw [if_pos hbl]
        exact ih (pending ++ [l]) a ha hna
      · rw [if_neg hbl]
        have hsq := ih [] a ha hna
        have hne : l :: squeezeAux maxC [] (l2 :: ls'') ≠ [] := by
          intro hcon
          cases hcon
        rw [List.getLast?_append_of_ne_nil _ hne]
        have hsqne : squeezeAux maxC [] (l2 :: ls'') ≠ [] := by
          intro hcon
          rw [hcon] at hsq
          cases hsq
        rcases List.exists_cons_of_ne_nil hsqne with ⟨s0, sq', hs⟩
        rw [hs, List.getLast?_cons_cons, ← hs]
        exact hsq

/-- Shape of the `fix_empty_lines` output: an edge-trimmed, run-capped core
followed by the optional appended blank line. -/
theorem fix_empty_lines_shape (config : Config) (tls : List Line) :
    ∃ q : List Line,
      fix_empty_lines config tls =
        q ++ (if config.rules.empty_lines.max_end > 0 then [[]] else []) ∧
      (∀ l ∈ q, l ∈ tls) ∧
      (∀ a, q.head? = some a → isBlank a = false) ∧
      (∀ a, q.getLast? = some a → isBlank a = false) ∧
      runsLeAux config.rules.empty_lines.max_consecutive 0 q = true := by
  refine ⟨squeezeAux config.rules.empty_lines.max_consecutive []
    (dropLastWhileB isBlank (tls.dropWhile isBlank)), ?_, ?_, ?_, ?_, ?_⟩
  · rw [fix_empty_lines]
    by_cases hm : config.rules.empty_lines.max_end > 0
    · rw [if_pos hm, if_pos hm]
    · rw [if_neg hm, if_neg hm, List.append_nil]
  · intro l hl
    rcases squeezeAux_mem _ _ _ l hl with h1 | h2
    · cases h1
    · have : l ∈ tls.dropWhile isBlank := by
        rw [dropLastWhileB] at h2
        have := (List.dropWhile_sublist isBlank).mem
          (List.mem_reverse.1 h2)
        exact List.mem_reverse.1 this
      exact (List.dropWhile_sublist isBlank).mem this
  · intro a ha
    cases he : dropLastWhileB isBlank (tls.dropWhile isBlank) with
    | nil =>
      rw [he] at ha
      rw [squeezeAux, List.drop_nil] at ha
      cases ha
    | cons l e' =>
      have hlb : isBlank l = false := by
        have hne : dropLastWhileB isBlank (tls.dropWhile isBlank) ≠ [] := by
          rw [he]; intro hcon; cases hcon
        have hpre : (dropLastWhileB isBlank
            (tls.dropWhile isBlank)).head? = (tls.dropWhile isBlank).head? :=
          head?_of_isPrefix (revDropRev_isPrefix isBlank _) hne
        apply head?_dropWhile_false isBlank tls
        rw [← hpre, he]
        rfl
      rw [he, squeezeAux, if_neg (by rw [hlb]; simp), List.drop_nil,
        List.nil_append] at ha
      rw [List.head?_cons] at ha
      cases ha
      exact hlb
  · intro a ha
    cases he : dropLastWhileB isBlank (tls.dropWhile isBlank) with
    | nil =>
      rw [he] at ha
      rw [squeezeAux, List.drop_nil] at ha
      cases ha
    | cons l e' =>
      have hne : dropLastWhileB isBlank (tls.dropWhile isBlank) ≠ [] := by
        rw [he]; intro hcon; cases hcon
      rcases Option.ne_none_iff_exists'.1
        ((List.getLast?_eq_none_iff).not.2 hne ∘ id) with ⟨a0, ha0⟩
      have ha0b : isBlank a0 = false :=
        revDropRev_getLast_false isBlank _ a0 ha0
      have := squeezeAux_getLast config.rules.empty_lines.max_consecutive
        _ [] a0 ha0 ha0b
      rw [he] at this ha0
      rw [he] at ha
      rw [this] at ha
      cases ha
      exact ha0b
  · exact squeezeAux_capped _ _ [] (by intro a ha; cases ha)

/-- A second `fix_empty_lines` pass over its own output shape is the
identity. -/
theorem fix_empty_lines_pass2 (config : Config) (q : List Line)
    (hhead : ∀ a, q.head? = some a → isBlank a = false)
    (hlast : ∀ a, q.getLast? = some a → isBlank a = false)
    (hcap : runsLeAux config.rules.empty_lines.max_consecutive 0 q = true) :
    fix_empty_lines config
        (q ++ (if config.rules.empty_lines.max_end > 0 then [[]] else [])) =
      q ++ (if config.rules.empty_lines.max_end > 0 then [[]] else []) := by
  have hoptb : ∀ l ∈ (if config.rules.empty_lines.max_end > 0 then
      [([] : Line)] else []), isBlank l = true := by
    intro l hl
    by_cases hm : config.rules.empty_lines.max_end > 0
    · rw [if_pos hm] at hl
      rcases List.mem_singleton.1 hl with rfl
      rfl
    · rw [if_neg hm] at hl
      cases hl
  have h2 : dropLastWhileB isBlank
      (q ++ (if config.rules.empty_lines.max_end > 0 then [[]] else [])) =
      q := by
    rw [dropLastWhileB, revDropRev_append_pass isBlank q _ hoptb]
    exact revDropRev_eq_self isBlank q hlast
  have h3 : squeezeAux config.rules.empty_lines.max_consecutive [] q = q := by
    have := squeezeAux_id config.rules.empty_lines.max_consecutive q []
      (Nat.zero_le _) hcap
    rw [this]
    rfl
  cases hq : q with
  | nil =>
    rw [fix_empty_lines]
    by_cases hm : config.rules.empty_lines.max_end > 0
    · rw [if_pos hm, if_pos hm]
      have hrw : dropLastWhileB isBlank
          ((([] : List Line) ++ [[]]).dropWhile isBlank) = [] := rfl
      rw [hrw, squeezeAux, List.drop_nil]
    · rw [if_neg hm, if_neg hm]
      have hrw : dropLastWhileB isBlank
          ((([] : List Line) ++ []).dropWhile isBlank) = [] := rfl
      rw [hrw, squeezeAux, List.drop_nil]
      rfl
  | cons l q' =>
    have hlb : isBlank l = false := by
      apply hhead
      rw [hq]
      rfl
    rw [← hq]
    rw [fix_empty_lines]
    have h1 : (q ++ (if config.rules.empty_lines.max_end > 0 then [[]]
        else [])).dropWhile isBlank =
        q ++ (if config.rules.empty_lines.max_end > 0 then [[]] else []) := by
      rw [hq, List.cons_append, List.dropWhile_cons,
        if_neg (by rw [hlb]; simp)]
    rw [h1, h2, h3]
    by_cases hm : config.rules.empty_lines.max_end > 0
    · rw [if_pos hm, if_pos hm]
    · rw [if_neg hm, if_neg hm, List.append_nil]

/-- The quote fix keeps an empty line empty. -/
theorem fixQuoteLine_nil (quotes : QuotesRule) : fixQuoteLine quotes [] = [] := by
  rw [fixQuoteLine]
  by_cases hp : quotes.prefer_double = true
  · rw [if_pos hp]
    rfl
  · rw [if_neg hp]
    rfl

/-- With `prefer_double`, the quote fix is the blind character map. -/
theorem fixQuoteLine_pd (quotes : QuotesRule) (l : Line)
    (hp : quotes.prefer_double = true) :
    fixQuoteLine quotes l = l.map mapQuoteChar := by
  rw [fixQuoteLine, if_pos hp]

/-- Without `prefer_double`, a non-strippable line is left unchanged. -/
theorem fixQuoteLine_id_of_not_strippable (quotes : QuotesRule) (l : Line)
    (hp : quotes.prefer_double = false) (hs : strippable l = false) :
    fixQuoteLine quotes l = l := by
  rw [fixQuoteLine, if_neg (by rw [hp]; simp)]
  cases hfs : findSpan l with
  | none => rfl
  | some content =>
    have hs' : (!content.contains ':' && !content.contains '#' &&
        !content.isEmpty) = false := by
      rw [strippable, hfs] at hs
      exact hs
    show (if (!content.contains ':' && !content.contains '#' &&
        !content.isEmpty) = true then
        replaceAll1 '\'' (content ++ ['\'']) content
          (replaceAll1 '"' (content ++ ['"']) content l)
      else l) = l
    rw [if_neg (by rw [hs']; simp)]

/-- The run bound is invariant under the blind quote map. -/
theorem runsLeAux_map_quote (maxC : Nat) :
    ∀ (ls : List Line) (cnt : Nat),
      runsLeAux maxC cnt (ls.map (List.map mapQuoteChar)) =
        runsLeAux maxC cnt ls := by
  intro ls
  induction ls with
  | nil => intro cnt; rfl
  | cons l ls' ih =>
    intro cnt
    rw [List.map_cons, runsLeAux, runsLeAux, isBlank_map_quote]
    by_cases hbl : isBlank l = true
    · rw [if_pos hbl, if_pos hbl, ih]
    · rw [if_neg hbl, if_neg hbl, ih]

/-- The blind quote map never introduces a newline. -/
theorem no_newline_map_quote (l : Line) (h : '\n' ∉ l) :
    '\n' ∉ l.map mapQuoteChar := by
  intro hmem
  rcases List.mem_map.1 hmem with ⟨c, hc, hfc⟩
  rw [mapQuoteChar] at hfc
  by_cases hq : c = '\''
  · rw [if_pos hq] at hfc
    cases hfc
  · rw [if_neg hq] at hfc
    exact h (hfc ▸ hc)

/-- A line fixed by the right trim does not end in a carriage return. -/
theorem trimEnd_self_no_cr (l : Line) (h : trimEndL l = l) :
    l.getLast? ≠ some '\r' := by
  intro hcon
  have := trimEndL_getLast_not_ws l '\r' (by rw [h]; exact hcon)
  cases this

/-- Assembly: `fix_content` maps the rendering of a stable line list to
itself.  The hypotheses say the lines are fixed points of each per-line fix
and carry the `fix_empty_lines` output shape. -/
theorem fix_content_fixed_point_aux (config : Config) (fls : List Line)
    (hopt : ∃ q'', fls = q'' ++
        (if config.rules.empty_lines.max_end > 0 then [[]] else []) ∧
      (∀ a, q''.head? = some a → isBlank a = false) ∧
      (∀ a, q''.getLast? = some a → isBlank a = false) ∧
      runsLeAux config.rules.empty_lines.max_consecutive 0 q'' = true)
    (hP1 : ∀ l ∈ fls, fixIndentLine config.rules.indentation.spaces l = some l)
    (hP2 : ∀ l ∈ fls, trimEndL l = l)
    (hP3 : ∀ l ∈ fls, '\n' ∉ l)
    (hP5 : fix_quotes config fls = fls) :
    fix_content config (joinNl fls ++ ['\n']) =
      some (joinNl fls ++ ['\n']) := by
  by_cases hfn : fls = []
  · rcases hopt with ⟨q'', hfls, _, _, _⟩
    rw [hfn] at hfls
    have hm0 : ¬config.rules.empty_lines.max_end > 0 := by
      intro hm
      rw [if_pos hm] at hfls
      rcases List.append_eq_nil.1 hfls.symm with ⟨_, hcon⟩
      cases hcon
    rw [hfn]
    have hr : rustLines (joinNl [] ++ ['\n']) = [[]] := rfl
    show Option.bind (fix_indentation config
        (rustLines (joinNl [] ++ ['\n'])))
      (fun lines => some (joinNl (fix_quotes config
        (fix_empty_lines config (fix_trailing_spaces lines))) ++ ['\n'])) =
      some (joinNl [] ++ ['\n'])
    rw [hr]
    have h1 : fix_indentation config [[]] = some [[]] := by
      apply mapM_eq_some_self
      intro a ha
      rcases List.mem_singleton.1 ha with rfl
      rfl
    rw [h1]
    show some (joinNl (fix_quotes config (fix_empty_lines config
      (fix_trailing_spaces [[]]))) ++ ['\n']) = some (joinNl [] ++ ['\n'])
    have hts : fix_trailing_spaces [[]] = [[]] := rfl
    rw [hts]
    have he : fix_empty_lines config [[]] = [] := by
      have h0 : dropLastWhileB isBlank (List.dropWhile isBlank [[]]) = [] := rfl
      show (if config.rules.empty_lines.max_end > 0 then
        squeezeAux config.rules.empty_lines.max_consecutive []
          (dropLastWhileB isBlank (List.dropWhile isBlank [[]])) ++ [[]]
        else squeezeAux config.rules.empty_lines.max_consecutive []
          (dropLastWhileB isBlank (List.dropWhile isBlank [[]]))) = []
      rw [h0, squeezeAux, List.drop_nil, if_neg hm0]
    rw [he]
    rfl
  · have hrl : rustLines (joinNl fls ++ ['\n']) = fls :=
      rustLines_joinNl fls hfn hP3
        (fun l hl => trimEnd_self_no_cr l (hP2 l hl))
    show Option.bind (fix_indentation config
        (rustLines (joinNl fls ++ ['\n'])))
      (fun lines => some (joinNl (fix_quotes config
        (fix_empty_lines config (fix_trailing_spaces lines))) ++ ['\n'])) =
      some (joinNl fls ++ ['\n'])
    rw [hrl]
    have h1 : fix_indentation config fls = some fls :=
      mapM_eq_some_self _ fls hP1
    rw [h1]
    show some (joinNl (fix_quotes config (fix_empty_lines config
      (fix_trailing_spaces fls))) ++ ['\n']) = some (joinNl fls ++ ['\n'])
    have hts : fix_trailing_spaces fls = fls := map_eq_self_of _ fls hP2
    rw [hts]
    rcases hopt with ⟨q'', hfls, hh, hl, hc⟩
    have he : fix_empty_lines config fls = fls := by
      rw [hfls]
      exact fix_empty_lines_pass2 config q'' hh hl hc
    rw [he, hP5]

/-- The blind quote map on a whole line is idempotent. -/
theorem map_quote_idem_list (l : Line) :
    (l.map mapQuoteChar).map mapQuoteChar = l.map mapQuoteChar := by
  rw [List.map_map]
  exact List.map_congr_left (fun c _ => mapQuoteChar_idem c)

/-- Members of the optional appended blank line are empty. -/
theorem mem_opt_eq_nil (config : Config) (l : Line)
    (h : l ∈ (if config.rules.empty_lines.max_end > 0 then
      [([] : Line)] else [])) : l = [] := by
  by_cases hm : config.rules.empty_lines.max_end > 0
  · rw [if_pos hm] at h
    exact List.mem_singleton.1 h
  · rw [if_neg hm] at h
    cases h

/-- C3: the auto-fix rewrite is idempotent on every input that does not hit
the quote-stripping edge case, i.e. whenever `prefer_double` is set or no
input line contains a strippable quoted span: a second `fix_content` pass
returns its input byte-for-byte. -/
theorem fix_content_idempotent (config : Config) (x y : Line)
    (hy : fix_content config x = some y)
    (hq : config.rules.quotes.prefer_double = true ∨
          ∀ l ∈ rustLines x, strippable l = false) :
    fix_content config y = some y := by
  cases h1 : fix_indentation config (rustLines x) with
  | none =>
    have hcon : fix_content config x = none := by
      show Option.bind (fix_indentation config (rustLines x))
        (fun lines => some (joinNl (fix_quotes config
          (fix_empty_lines config (fix_trailing_spaces lines))) ++ ['\n'])) =
        none
      rw [h1]
      rfl
    rw [hcon] at hy
    cases hy
  | some ls1 =>
    have hy' : y = joinNl (fix_quotes config (fix_empty_lines config
        (fix_trailing_spaces ls1))) ++ ['\n'] := by
      have h2 : fix_content config x = some (joinNl (fix_quotes config
          (fix_empty_lines config (fix_trailing_spaces ls1))) ++ ['\n']) := by
        show Option.bind (fix_indentation config (rustLines x))
          (fun lines => some (joinNl (fix_quotes config
            (fix_empty_lines config (fix_trailing_spaces lines))) ++
            ['\n'])) = _
        rw [h1]
        rfl
      rw [hy] at h2
      exact Option.some.inj h2
    have htls : ∀ l ∈ fix_trailing_spaces ls1, ∃ l0 ∈ rustLines x,
        fixIndentLine config.rules.indentation.spaces l = some l ∧
        trimEndL l = l ∧ '\n' ∉ l ∧ findSpan l = findSpan l0 := by
      intro l hl
      rcases List.mem_map.1 hl with ⟨l1, hl1, rfl⟩
      rcases mapM_mem _ _ _ h1 l1 hl1 with ⟨l0, hl0, hfix⟩
      refine ⟨l0, hl0, fixIndentLine_trimEnd _ _ _ hfix,
        trimEndL_trimEndL l1, ?_, ?_⟩
      · intro hmem
        have hmem1 : '\n' ∈ l1 := by
          rcases trimEndL_isPrefix l1 with ⟨t, ht⟩
          rw [← ht]
          exact List.mem_append_left t hmem
        rcases fixIndentLine_mem _ _ _ hfix '\n' hmem1 with habs | hmem0
        · exact absurd habs (by decide)
        · exact rustLines_no_newline x l0 hl0 hmem0
      · rw [findSpan_trimEndL l1, fixIndentLine_findSpan _ _ _ hfix]
    obtain ⟨q, hshape, hqmem, hqhead, hqlast, hqcap⟩ :=
      fix_empty_lines_shape config (fix_trailing_spaces ls1)
    rw [hshape] at hy'
    by_cases hpd : config.rules.quotes.prefer_double = true
    · -- prefer_double: the quote pass is the blind character map
      have hfq : fix_quotes config
          (q ++ (if config.rules.empty_lines.max_end > 0 then [[]]
            else [])) =
          q.map (List.map mapQuoteChar) ++
          (if config.rules.empty_lines.max_end > 0 then [[]] else []) := by
        rw [fix_quotes, List.map_append]
        congr 1
        · exact List.map_congr_left (fun l _ => fixQuoteLine_pd _ l hpd)
        · by_cases hm : config.rules.empty_lines.max_end > 0
          · rw [if_pos hm]
            rw [List.map_cons, List.map_nil, fixQuoteLine_nil]
          · rw [if_neg hm]
            rfl
      have haux := fix_content_fixed_point_aux config
        (q.map (List.map mapQuoteChar) ++
          (if config.rules.empty_lines.max_end > 0 then [[]] else []))
        ⟨q.map (List.map mapQuoteChar), rfl,
          by
            intro a ha
            rw [List.head?_map] at ha
            cases hh : q.head? with
            | none => rw [hh] at ha; cases ha
            | some a0 =>
              rw [hh] at ha
              cases ha
              rw [isBlank_map_quote]
              exact hqhead a0 hh,
          by
            intro a ha
            rw [List.getLast?_map] at ha
            cases hh : q.getLast? with
            | none => rw [hh] at ha; cases ha
            | some a0 =>
              rw [hh] at ha
              cases ha
              rw [isBlank_map_quote]
              exact hqlast a0 hh,
          by rw [runsLeAux_map_quote]; exact hqcap⟩
        (by
          intro l hl
          rcases List.mem_append.1 hl with hlq | hlo
          · rcases List.mem_map.1 hlq with ⟨l0, hl0, rfl⟩
            rcases htls l0 (hqmem l0 hl0) with ⟨_, _, hfixq, _, _, _⟩
            rw [fixIndentLine_map_quote, hfixq]
            rfl
          · rw [mem_opt_eq_nil config l hlo]
            rfl)
        (by
          intro l hl
          rcases List.mem_append.1 hl with hlq | hlo
          · rcases List.mem_map.1 hlq with ⟨l0, hl0, rfl⟩
            rcases htls l0 (hqmem l0 hl0) with ⟨_, _, _, htr, _, _⟩
            exact trimEndL_map_quote_self l0 htr
          · rw [mem_opt_eq_nil config l hlo]
            rfl)
        (by
          intro l hl
          rcases List.mem_append.1 hl with hlq | hlo
          · rcases List.mem_map.1 hlq with ⟨l0, hl0, rfl⟩
            rcases htls l0 (hqmem l0 hl0) with ⟨_, _, _, _, hnl, _⟩
            exact no_newline_map_quote l0 hnl
          · rw [mem_opt_eq_nil config l hlo]
            exact List.not_mem_nil '\n')
        (by
          apply map_eq_self_of
          intro l hl
          rcases List.mem_append.1 hl with hlq | hlo
          · rcases List.mem_map.1 hlq with ⟨l0, _, rfl⟩
            rw [fixQuoteLine_pd _ _ hpd]
            exact map_quote_idem_list l0
          · rw [mem_opt_eq_nil config l hlo]
            exact fixQuoteLine_nil _)
      rw [hy', hfq]
      exact haux
    · -- quote stripping disabled on every reachable line
      have hstrip : ∀ l ∈ rustLines x, strippable l = false := by
        rcases hq with h | h
        · exact absurd h hpd
        · exact h
      have hid : ∀ l ∈ q ++ (if config.rules.empty_lines.max_end > 0
          then [[]] else []), fixQuoteLine config.rules.quotes l = l := by
        intro l hl
        rcases List.mem_append.1 hl with hlq | hlo
        · rcases htls l (hqmem l hlq) with ⟨l0, hl0, _, _, _, hfsp⟩
          apply fixQuoteLine_id_of_not_strippable _ _
            (Bool.eq_false_iff.2 hpd)
          rw [strippable_congr l l0 hfsp]
          exact hstrip l0 hl0
        · rw [mem_opt_eq_nil config l hlo]
          exact fixQuoteLine_nil _
      have hfq : fix_quotes config (q ++
          (if config.rules.empty_lines.max_end > 0 then [[]] else [])) =
          q ++ (if config.rules.empty_lines.max_end > 0 then [[]]
            else []) := map_eq_self_of _ _ hid
      have haux := fix_content_fixed_point_aux config
        (q ++ (if config.rules.empty_lines.max_end > 0 then [[]] else []))
        ⟨q, rfl, hqhead, hqlast, hqcap⟩
        (by
          intro l hl
          rcases List.mem_append.1 hl with hlq | hlo
          · rcases htls l (hqmem l hlq) with ⟨_, _, hfixq, _, _, _⟩
            exact hfixq
          · rw [mem_opt_eq_nil config l hlo]
            rfl)
        (by
          intro l hl
          rcases List.mem_append.1 hl with hlq | hlo
          · rcases htls l (hqmem l hlq) with ⟨_, _, _, htr, _, _⟩
            exact htr
          · rw [mem_opt_eq_nil config l hlo]
            rfl)
        (by
          intro l hl
          rcases List.mem_append.1 hl with hlq | hlo
          · rcases htls l (hqmem l hlq) with ⟨_, _, _, _, hnl, _⟩
            exact hnl
          · rw [mem_opt_eq_nil config l hlo]
            exact List.not_mem_nil '\n')
        hfq
      rw [hy', hfq]
      exact haux

/-- Witness for C3: one concrete pass plus the theorem's second pass on the
spec's end-to-end example document. -/
theorem fix_content_idempotent_witness :
    fix_content Config.default "  key:   value   \n\n\n\n".toList =
      some "  key:   value\n\n".toList ∧
    fix_content Config.default "  key:   value\n\n".toList =
      some "  key:   value\n\n".toList :=
  ⟨by decide,
   fix_content_idempotent Config.default "  key:   value   \n\n\n\n".toList
     "  key:   value\n\n".toList (by decide) (Or.inr (by decide))⟩
